import Mathlib

/-!
Verification development for the kaart-kompaan card-game engine.

The game state machine (`Round`) is translated from `src/round.rs`; the MCTS
arena (`Tree`) from `src/mcts/tree.rs`.  The leaf modules of the repository
(`card.rs`, `suite.rs`, `stack.rs`, `trick.rs`, `action.rs`,
`action_collection.rs`, `mcts/node.rs`, `mcts/edge.rs`) are not part of the
provided sources, so their definitions are modelled from the specification,
as indicated in their doc comments.

Machine integers are modelled as `Nat`: the 32-bit card bitboard (`Stack`)
only ever holds values below `2 ^ 32` (all stacks are built from bits
`0..31`), so `Nat` bitwise operations coincide with the `u32` operations of
the source.  The process-wide `romu` random generator is modelled as an
explicit list of draws, each draw reduced modulo its range exactly where the
source calls `romu::mod_usize`.
-/

/-- Modelled from the spec: one of 4 suit values (`suite.rs` is not among the
provided sources).  The variant names and their discriminant order are taken
from the iteration order in `Round::possible_trump_actions`. -/
inductive Suite
  | Pijkens
  | Klavers
  | Harten
  | Koeken
deriving DecidableEq

/-- Discriminant of a suit, as used by `1 << suite as u8`. -/
def Suite.toNat : Suite → Nat
  | .Pijkens => 0
  | .Klavers => 1
  | .Harten => 2
  | .Koeken => 3

/-- Suit of a card index: the spec fixes `suit = index / 8`. -/
def Suite.fromNat (n : Nat) : Suite :=
  match n with
  | 0 => .Pijkens
  | 1 => .Klavers
  | 2 => .Harten
  | _ => .Koeken

/-- Modelled from the spec: the 8-card bit mask of a suit (`CardSet` supports
suit-masking; cards of suit `s` are the indices `8*s .. 8*s+7`). -/
def Suite.mask (s : Suite) : Nat := 255 <<< (8 * s.toNat)

/-- Modelled from the spec: a card is an integer identity in `[0,32)` with
derived suit `index / 8` and rank `index mod 8` (`card.rs` is not among the
provided sources). -/
structure Card where
  index : Nat
deriving DecidableEq

def Card.suite (c : Card) : Suite := Suite.fromNat (c.index / 8)

def Card.rank (c : Card) : Nat := c.index % 8

/-- Modelled from the spec: point values attach to rank, independent of suit.
The spec does not record the concrete values, so an arbitrary fixed
assignment (the rank itself) is used; no claim below depends on the values. -/
def rankValue (r : Nat) : Nat := r

def Card.value (c : Card) : Nat := rankValue c.rank

/-- Full 32-card deck as a bitboard, `Stack::ALL` (`!0u32`). -/
def Stack.ALL : Nat := 4294967295

/-- Modelled from the spec: all cards ranked above `c` within `c`'s suit
(`stack.rs` is not among the provided sources).  Bits
`8*suit + rank + 1 .. 8*suit + 7`. -/
def Stack.all_above (c : Card) : Nat :=
  (255 <<< (8 * c.suite.toNat + c.rank + 1)) &&& c.suite.mask

/-- Modelled from the spec: suit-membership test on a bitboard. -/
def Stack.has_suite (s : Nat) (su : Suite) : Bool := s &&& su.mask != 0

/-- Modelled from the spec: index-membership test on a bitboard. -/
def Stack.has_index (s : Nat) (i : Nat) : Bool := s.testBit i

/-- Modelled from the spec: cardinality (popcount) of a bitboard; every stack
of the development holds bits `0..31` only. -/
def Stack.len (s : Nat) : Nat :=
  ((Finset.range 32).filter (fun i => s.testBit i = true)).card

/-- Action type, from the spec's data model: `PlayCard(Card)` or
`PickTrump(Optional<Suit>)` (`action.rs` is not among the provided
sources). -/
inductive GameAction
  | playCard (c : Card)
  | pickTrump (t : Option Suite)
deriving DecidableEq

/-- Modelled from the spec: a variant container over either a `CardSet` bit
mask (play phase) or a suit bit mask (bidding phase)
(`action_collection.rs` is not among the provided sources). -/
inductive ActionCollection
  | cards (s : Nat)
  | trumps (bits : Nat)
deriving DecidableEq

/-- Modelled from the spec: membership test of the action container.  A card
action is a member of the `cards` variant iff its bit is set; a suit choice
is a member of the `trumps` variant iff its discriminant bit is set; the
spec states that in the bidding phase "the implicit no-trump option is
always available", so `pickTrump none` is always a member of the `trumps`
variant. -/
def ActionCollection.has : ActionCollection → GameAction → Bool
  | .cards s, .playCard c => s.testBit c.index
  | .cards _, .pickTrump _ => false
  | .trumps b, .pickTrump (some su) => b.testBit su.toNat
  | .trumps _, .pickTrump none => true
  | .trumps _, .playCard _ => false

/-- Modelled from the spec: the per-trick record (`trick.rs` is not among the
provided sources): the active trump, and the cards played so far with their
player indices, in play order. -/
structure Trick where
  trump : Option Suite
  cards : List (Card × Nat)
deriving DecidableEq

def Trick.play (t : Trick) (c : Card) (p : Nat) : Trick :=
  { t with cards := t.cards ++ [(c, p)] }

def Trick.is_finished (t : Trick) : Bool := t.cards.length == 4

def Trick.suite_to_follow (t : Trick) : Option Suite :=
  t.cards.head?.map (fun e => e.1.suite)

/-- Modelled from the spec: `c` beats the current winning card `w` iff it is
a higher card of the same suit, or a trump while `w` is not (trump cards
outrank all non-trump cards; among non-trump cards only those matching the
suit led can win, and the running winner is always of the led suit or a
trump). -/
def Trick.beats (trump : Option Suite) (w c : Card) : Bool :=
  if c.suite = w.suite then w.rank < c.rank
  else trump == some c.suite

/-- Modelled from the spec: the derived current winner (card and player),
recomputed over the cards in play order. -/
def Trick.winner (t : Trick) : Option (Card × Nat) :=
  t.cards.foldl
    (fun acc e =>
      match acc with
      | none => some e
      | some w => if Trick.beats t.trump w.1 e.1 then some e else some w)
    none

/-- Modelled from the spec: the trick's score is the sum of the point values
of its cards. -/
def Trick.score (t : Trick) : Nat := (t.cards.map (fun e => e.1.value)).sum

/-- Clearing a trick resets the played cards; the trump persists for the
round. -/
def Trick.clear (t : Trick) : Trick := { t with cards := [] }

def Trick.set_trump (t : Trick) (s : Option Suite) : Trick := { t with trump := s }

inductive RoundPhase
  | PickTrump
  | PlayCards
deriving DecidableEq

/-- The round state, from `Round` in `round.rs`.  The `[Stack; 4]` hand array
and the `[i16; 2]` score array are modelled as index functions; only indices
`0..3` (resp. `0..1`) are ever read or written. -/
structure Round where
  turn : Nat
  dealer : Nat
  playerCards : Nat → Nat
  playedCards : Nat
  scores : Nat → Nat
  trick : Trick
  phase : RoundPhase

/-- `Round::default()`. -/
def Round.mkDefault : Round :=
  { turn := 0, dealer := 0, playerCards := fun _ => 0, playedCards := 0,
    scores := fun _ => 0, trick := { trump := none, cards := [] },
    phase := .PickTrump }

/-- `Round::set_dealer`. -/
def Round.set_dealer (r : Round) (dealer : Nat) : Round :=
  { r with dealer := dealer, turn := (dealer + 1) % 4 }

/-- Array-entry swap on the positions-to-values map of `indices`,
`indices.swap(i, j)`. -/
def swapFn (f : Nat → Nat) (i j : Nat) : Nat → Nat :=
  fun k => if k = i then f j else if k = j then f i else f k

/-- Intermediate state of the `Round::deal_cards` loop: the `indices` array
(as a map from position to value) and the three accumulated stacks. -/
structure DealSt where
  idx : Nat → Nat
  c0 : Nat
  c1 : Nat
  c2 : Nat

/-- One iteration of the `deal_cards` loop at index `i` with random draw `r`:
`j = romu::mod_usize(i + 1)` is modelled as `r % (i + 1)`, then
`indices.swap(i, j)` and `cards[(i / 8) - 1] |= 1 << indices[i]`. -/
def dealStep (st : DealSt) (i r : Nat) : DealSt :=
  let j := r % (i + 1)
  let idx := swapFn st.idx i j
  let bit := 1 <<< idx i
  if i / 8 = 1 then { st with idx := idx, c0 := st.c0 ||| bit }
  else if i / 8 = 2 then { st with idx := idx, c1 := st.c1 ||| bit }
  else { st with idx := idx, c2 := st.c2 ||| bit }

/-- State after the first `k` iterations of the `deal_cards` loop, which runs
`i` from `31` down to `8` (so iteration `k` handles `i = 31 - k`). -/
def dealIter (rng : List Nat) : Nat → DealSt
  | 0 => { idx := fun x => x, c0 := 0, c1 := 0, c2 := 0 }
  | k + 1 => dealStep (dealIter rng k) (31 - k) (rng.getD k 0)

/-- `Round::deal_cards`, with the random generator as an explicit draw
list. -/
def Round.deal_cards (r : Round) (rng : List Nat) : Round :=
  let st := dealIter rng 24
  { r with playerCards := fun p =>
      if p = 0 then st.c0
      else if p = 1 then st.c1
      else if p = 2 then st.c2
      else if p = 3 then Stack.ALL ^^^ st.c0 ^^^ st.c1 ^^^ st.c2
      else r.playerCards p }

/-- `Round::new`. -/
def Round.new (dealer : Nat) (rng : List Nat) : Round :=
  (Round.mkDefault.set_dealer dealer).deal_cards rng

/-- `Round::on_trick_finish`.  The `none` branch is the source's
`self.trick.winner().unwrap()`: it is unreachable because a finished trick
is nonempty, hence has a winner. -/
def Round.on_trick_finish (r : Round) : Round :=
  match r.trick.winner with
  | none => r
  | some (_, winner) =>
    let winningTeam := winner % 2
    { r with
      scores := fun t => if t = winningTeam then r.scores t + r.trick.score else r.scores t,
      turn := winner,
      trick := r.trick.clear }

/-- `Round::play_card`. -/
def Round.play_card (r : Round) (c : Card) : Round :=
  let r' : Round :=
    { r with
      trick := r.trick.play c r.turn,
      playedCards := r.playedCards ||| (1 <<< c.index),
      playerCards := fun p =>
        if p = r.turn then r.playerCards p ^^^ (1 <<< c.index) else r.playerCards p }
  if r'.trick.is_finished then r'.on_trick_finish
  else { r' with turn := (r'.turn + 1) % 4 }

/-- `Round::set_trump`. -/
def Round.set_trump (r : Round) (trump : Option Suite) : Round :=
  { r with trick := r.trick.set_trump trump, phase := .PlayCards }

/-- The follow-suit step of `Round::possible_card_actions`: restrict the hand
to the suit to follow when that leaves at least one card. -/
def Round.followFiltered (r : Round) : Nat :=
  let cards := r.playerCards r.turn
  match r.trick.suite_to_follow with
  | none => cards
  | some su =>
    let filtered := cards &&& su.mask
    if filtered ≠ 0 then filtered else cards

/-- The overtrump/overplay step of `Round::possible_card_actions`: when the
trick has a winner of the opposing team, intersect with the must-beat mask
when that leaves at least one card. -/
def Round.overtrumpFiltered (r : Round) (cards : Nat) : Nat :=
  match r.trick.winner with
  | none => cards
  | some (wc, wp) =>
    if wp % 2 ≠ r.turn % 2 then
      match r.trick.trump with
      | some trump =>
        let mask0 := Stack.all_above wc &&& wc.suite.mask
        let mask := if wc.suite ≠ trump then mask0 ||| trump.mask else mask0
        let filtered := cards &&& mask
        if filtered ≠ 0 then filtered else cards
      | none =>
        let mask := Stack.all_above wc &&& wc.suite.mask
        let filtered := cards &&& mask
        if filtered ≠ 0 then filtered else cards
    else cards

/-- `Round::possible_card_actions`. -/
def Round.possible_card_actions (r : Round) : ActionCollection :=
  .cards (r.overtrumpFiltered r.followFiltered)

/-- `Round::possible_trump_actions`. -/
def Round.possible_trump_actions (r : Round) : ActionCollection :=
  let cards := r.playerCards r.dealer
  let bits := [Suite.Pijkens, Suite.Klavers, Suite.Harten, Suite.Koeken].foldl
    (fun b su => if Stack.has_suite cards su then b ||| (1 <<< su.toNat) else b) 0
  .trumps bits

/-- `<Round as State>::turn`: the acting player, by phase.  (In the source
the trait method shadows the `turn` field; here it is named `stateTurn`.) -/
def Round.stateTurn (r : Round) : Nat :=
  match r.phase with
  | .PickTrump => r.dealer
  | .PlayCards => r.turn

/-- Fisher-Yates steps of `romu::shuffle` over the positions-to-values map of
the `indices` vector of `Round::randomize`: iteration `k` swaps position
`i = len - 1 - k` with a random position `j ≤ i`. -/
def shufIter (rng : List Nat) (f0 : Nat → Nat) (len : Nat) : Nat → (Nat → Nat)
  | 0 => f0
  | k + 1 =>
    let f := shufIter rng f0 len k
    let i := len - 1 - k
    swapFn f i ((rng.getD k 0) % (i + 1))

/-- Modelled from the spec: `romu::shuffle` (external crate) uniformly
shuffles a slice; modelled as a full Fisher-Yates pass with explicit
draws. -/
def shuffle (rng : List Nat) (f0 : Nat → Nat) (len : Nat) : Nat → Nat :=
  shufIter rng f0 len (len - 1)

/-- `Stack::from_slice` on the segment `[start, start + n)` of the shuffled
index vector. -/
def fromSeg (f : Nat → Nat) (start n : Nat) : Nat :=
  match n with
  | 0 => 0
  | m + 1 => fromSeg f start m ||| (1 <<< f (start + m))

/-- The `cards_to_deal` stack of `Round::randomize`: the full deck minus the
observer's hand minus the played cards. -/
def Round.unseenOf (r : Round) (observer : Nat) : Nat :=
  Stack.ALL ^^^ r.playerCards observer ^^^ r.playedCards

/-- The `indices` vector of `Round::randomize`: the unseen card indices in
increasing order. -/
def Round.idxList (r : Round) (observer : Nat) : List Nat :=
  (List.range 32).filter (fun x => Stack.has_index (r.unseenOf observer) x)

/-- The shuffled `indices` vector of `Round::randomize`, as a
position-to-value map. -/
def Round.shufFn (r : Round) (observer : Nat) (rng : List Nat) : Nat → Nat :=
  shuffle rng (fun k => (r.idxList observer).getD k 0) (r.idxList observer).length

/-- `<Round as State>::randomize`, with the random generator as an explicit
draw list. -/
def Round.randomize (r : Round) (observer : Nat) (rng : List Nat) : Round :=
  let f := r.shufFn observer rng
  let n1 := Stack.len (r.playerCards ((observer + 1) % 4))
  let n2 := Stack.len (r.playerCards ((observer + 2) % 4))
  let n3 := Stack.len (r.playerCards ((observer + 3) % 4))
  { r with playerCards := fun p =>
      if p = (observer + 1) % 4 then fromSeg f 0 n1
      else if p = (observer + 2) % 4 then fromSeg f n1 n2
      else if p = (observer + 3) % 4 then fromSeg f (n1 + n2) n3
      else r.playerCards p }

/-- `<Round as State>::possible_actions`. -/
def Round.possible_actions (r : Round) : ActionCollection :=
  match r.phase with
  | .PickTrump => r.possible_trump_actions
  | .PlayCards => r.possible_card_actions

/-- `<Round as State>::apply_action`. -/
def Round.apply_action (r : Round) (a : GameAction) : Round :=
  match a with
  | .playCard c => r.play_card c
  | .pickTrump t => r.set_trump t

/-- `<Round as State>::is_terminal`. -/
def Round.is_terminal (r : Round) : Bool := r.playedCards == Stack.ALL

/-- `<Round as State>::reward`.  The source asserts `is_terminal` and returns
an `f32`; the assertion failure is modelled as `none` and the three exact
float results `1.0`, `0.0`, `0.5` as rationals. -/
def Round.reward (r : Round) (perspective : Nat) : Option ℚ :=
  if r.is_terminal then
    let team := perspective % 2
    some (match compare (r.scores team) (r.scores (1 - team)) with
      | .gt => 1
      | .lt => 0
      | .eq => 1 / 2)
  else none

/-- Modelled from the spec: a search edge records the action taken and the
acting player at the moment the edge was taken (`mcts/edge.rs` is not among
the provided sources). -/
structure Edge where
  action : GameAction
  player : Nat
deriving DecidableEq

/-- Modelled from the spec: an arena node (`mcts/node.rs` is not among the
provided sources): incoming edge (absent only at the root), parent id,
child ids, terminal flag, visit count, accumulated reward, and the
remaining untried-action pool. -/
structure Node where
  edge : Option Edge
  parentId : Option Nat
  childIds : List Nat
  terminal : Bool
  numSims : Nat
  totalScore : ℚ
  untried : ActionCollection
deriving DecidableEq

instance : Inhabited Node :=
  ⟨{ edge := none, parentId := none, childIds := [], terminal := false,
     numSims := 0, totalScore := 0, untried := .cards 0 }⟩

/-- The search arena, from `Tree` in `mcts/tree.rs`, specialised to the
`Round` state; the `Vec<Node>` is modelled as a list indexed by node id. -/
structure SearchTree where
  nodes : List Node
  index : Nat

/-- The legality filter of `Tree::best_action`: a child id passes iff its
edge action is a member of the current legal-action set (the source
`get_edge(child_id).unwrap()` panics on an edge-less child; such a child is
filtered out here and excluded by hypothesis in the theorems). -/
def SearchTree.legalChild (tr : SearchTree) (legal : ActionCollection) (cid : Nat) : Bool :=
  match (tr.nodes.getD cid default).edge with
  | some e => legal.has e.action
  | none => false

/-- `max_by_key` over visit counts: Rust's `Iterator::max_by_key` returns the
last maximal element, matching the fold's tie-breaking. -/
def SearchTree.maxBySims (tr : SearchTree) : List Nat → Option Nat
  | [] => none
  | c :: cs => some (cs.foldl
      (fun b x =>
        if (tr.nodes.getD b default).numSims ≤ (tr.nodes.getD x default).numSims then x else b)
      c)

/-- `Tree::best_action`: among the children of `nodeId` whose edge action is
currently legal, the action of the one with the highest visit count.  The
source unwraps; an empty legal-children set is modelled as `none`. -/
def SearchTree.best_action (tr : SearchTree) (nodeId : Nat) (r : Round) : Option GameAction :=
  let legal := r.possible_actions
  let cands := (tr.nodes.getD nodeId default).childIds.filter (tr.legalChild legal)
  match tr.maxBySims cands with
  | none => none
  | some cid => (tr.nodes.getD cid default).edge.map Edge.action

/-- A concrete play-phase state: Pijkens was led, an opposing player has
trumped with Koeken rank 2, and the actor (player 2) holds the Pijkens rank
1 card together with the higher trump Koeken rank 5. -/
def rOvertrump : Round :=
  { turn := 2, dealer := 0,
    playerCards := fun p => if p = 2 then 2 ^ 1 + 2 ^ 29 else 0,
    playedCards := 2 ^ 0 + 2 ^ 26,
    scores := fun _ => 0,
    trick := { trump := some .Koeken, cards := [(⟨0⟩, 0), (⟨26⟩, 1)] },
    phase := .PlayCards }

/-- As `rOvertrump`, but the actor holds no card of the led suit, so the
follow-suit filter leaves the whole hand. -/
def rOvertrumpVoid : Round :=
  { rOvertrump with playerCards := fun p => if p = 2 then 2 ^ 29 else 0 }

/-- A concrete bidding-phase state whose hands partition the deck by suit. -/
def rPick : Round :=
  { turn := 1, dealer := 0,
    playerCards := fun p =>
      if p = 0 then 255
      else if p = 1 then 255 <<< 8
      else if p = 2 then 255 <<< 16
      else if p = 3 then 255 <<< 24
      else 0,
    playedCards := 0, scores := fun _ => 0,
    trick := { trump := none, cards := [] }, phase := .PickTrump }

/-- A concrete play-phase state whose trick holds three cards. -/
def rTrick3 : Round :=
  { turn := 3, dealer := 0,
    playerCards := fun p => if p = 3 then 2 ^ 3 else 0,
    playedCards := 2 ^ 0 + 2 ^ 1 + 2 ^ 2,
    scores := fun _ => 0,
    trick := { trump := some .Koeken, cards := [(⟨0⟩, 0), (⟨1⟩, 1), (⟨2⟩, 2)] },
    phase := .PlayCards }

/-- A concrete terminal state. -/
def rTerm : Round :=
  { turn := 0, dealer := 0,
    playerCards := fun _ => 0,
    playedCards := Stack.ALL,
    scores := fun t => if t = 0 then 60 else 52,
    trick := { trump := none, cards := [] }, phase := .PlayCards }

/-- A concrete two-node arena: a root and one child reached by the always
legal no-trump bid. -/
def tree0 : SearchTree :=
  { nodes :=
      [ { edge := none, parentId := none, childIds := [1], terminal := false,
          numSims := 3, totalScore := 2, untried := .trumps 0 },
        { edge := some { action := .pickTrump none, player := 0 },
          parentId := some 0, childIds := [], terminal := false,
          numSims := 3, totalScore := 2, untried := .trumps 0 } ],
    index := 2 }

/-- Conservation invariant of the spec: the played set and the four hands
cover the full deck, and the played set and the four hands are pairwise
disjoint. -/
def Conserved (r : Round) : Prop :=
  (r.playedCards ||| r.playerCards 0 ||| r.playerCards 1 ||| r.playerCards 2 |||
    r.playerCards 3 = Stack.ALL) ∧
  (∀ p, p < 4 → r.playedCards &&& r.playerCards p = 0) ∧
  (∀ p q, p < 4 → q < 4 → p ≠ q → r.playerCards p &&& r.playerCards q = 0)

theorem testBit_one_shiftLeft (n i : Nat) : (1 <<< n : Nat).testBit i = decide (i = n) := by
  rw [Nat.shiftLeft_eq, one_mul]
  rcases eq_or_ne i n with h | h
  · subst h; simp [Nat.testBit_two_pow_self]
  · simp [Nat.testBit_two_pow_of_ne (Ne.symm h), h]

theorem testBit_ALL (i : Nat) : Stack.ALL.testBit i = decide (i < 32) := by
  have h : Stack.ALL = 2 ^ 32 - 1 := by norm_num [Stack.ALL]
  rw [h, Nat.testBit_two_pow_sub_one]

theorem testBit_255_shiftLeft (m i : Nat) :
    ((255 : Nat) <<< m).testBit i = (decide (m ≤ i) && decide (i - m < 8)) := by
  have h : (255 : Nat) = 2 ^ 8 - 1 := by norm_num
  rw [Nat.testBit_shiftLeft, h, Nat.testBit_two_pow_sub_one]

theorem suite_toNat_lt (su : Suite) : su.toNat < 4 := by
  cases su <;> simp [Suite.toNat]

theorem fromNat_toNat (su : Suite) : Suite.fromNat su.toNat = su := by
  cases su <;> rfl

theorem fromNat_eq_iff (n : Nat) (hn : n < 4) (su : Suite) :
    Suite.fromNat n = su ↔ n = su.toNat := by
  interval_cases n <;> cases su <;> simp [Suite.fromNat, Suite.toNat]

theorem testBit_suite_mask (su : Suite) (i : Nat) :
    (su.mask).testBit i = true ↔ i / 8 = su.toNat := by
  rw [Suite.mask, testBit_255_shiftLeft]
  simp only [Bool.and_eq_true, decide_eq_true_eq]
  omega

theorem testBit_all_above (c : Card) (i : Nat) :
    (Stack.all_above c).testBit i = true ↔ i / 8 = c.suite.toNat ∧ c.rank < i % 8 := by
  have hr : c.rank < 8 := Nat.mod_lt _ (by norm_num)
  rw [Stack.all_above]
  simp only [Nat.testBit_land, Bool.and_eq_true, testBit_255_shiftLeft,
    decide_eq_true_eq, testBit_suite_mask]
  omega

theorem testBit_land_left {s t : Nat} {i : Nat} (h : (s &&& t).testBit i = true) :
    s.testBit i = true := by
  rw [Nat.testBit_land, Bool.and_eq_true] at h
  exact h.1

theorem testBit_land_right {s t : Nat} {i : Nat} (h : (s &&& t).testBit i = true) :
    t.testBit i = true := by
  rw [Nat.testBit_land, Bool.and_eq_true] at h
  exact h.2

theorem ne_zero_of_testBit {s : Nat} {i : Nat} (h : s.testBit i = true) : s ≠ 0 := by
  intro h0
  rw [h0, Nat.zero_testBit] at h
  exact Bool.false_ne_true h

theorem exists_testBit_of_ne_zero {n : Nat} (h : n ≠ 0) : ∃ i, n.testBit i = true := by
  by_contra hc
  push_neg at hc
  refine h (Nat.eq_of_testBit_eq fun i => ?_)
  rw [Nat.zero_testBit]
  exact Bool.eq_false_iff.mpr (hc i)

/-- Membership in a suit's card mask, phrased through the derived suit of a
card index. -/
theorem has_suite_iff (hand : Nat) (su : Suite) :
    Stack.has_suite hand su = true ↔
      ∃ c : Card, c.index < 32 ∧ hand.testBit c.index = true ∧ c.suite = su := by
  rw [Stack.has_suite, bne_iff_ne, ne_eq]
  constructor
  · intro h
    obtain ⟨i, hi⟩ := exists_testBit_of_ne_zero h
    have hm := testBit_land_right hi
    rw [testBit_suite_mask] at hm
    have hlt : i < 32 := by have := suite_toNat_lt su; omega
    refine ⟨⟨i⟩, hlt, testBit_land_left hi, ?_⟩
    rw [Card.suite, hm, fromNat_toNat]
  · rintro ⟨c, hlt, hbit, hsu⟩
    have hdiv : c.index / 8 = su.toNat := by
      rw [← (fromNat_eq_iff (c.index / 8) (by omega) su)]
      exact hsu
    refine ne_zero_of_testBit (i := c.index) ?_
    rw [Nat.testBit_land, hbit, Bool.true_and]
    exact (testBit_suite_mask su c.index).mpr hdiv

/-- The overtrump step only ever shrinks the candidate set. -/
theorem overtrumpFiltered_subset (r : Round) (cards : Nat) (i : Nat)
    (h : (r.overtrumpFiltered cards).testBit i = true) : cards.testBit i = true := by
  rw [Round.overtrumpFiltered] at h
  rcases hw : r.trick.winner with _ | ⟨wc, wp⟩ <;> rw [hw] at h <;> dsimp only at h
  · exact h
  · split at h
    · rcases htr : r.trick.trump with _ | trump <;> rw [htr] at h <;> dsimp only at h
      · split at h
        · exact testBit_land_left h
        · exact h
      · split at h <;> split at h
        · exact testBit_land_left h
        · exact h
        · exact testBit_land_left h
        · exact h
    · exact h

/-- Whenever the trick has a suit to follow and the actor can follow, the
follow-suit step restricts the hand to that suit. -/
theorem followFiltered_of_can_follow (r : Round) (S : Suite)
    (hS : r.trick.suite_to_follow = some S)
    (hnz : r.playerCards r.turn &&& S.mask ≠ 0) :
    r.followFiltered = r.playerCards r.turn &&& S.mask := by
  unfold Round.followFiltered
  rw [hS]
  exact if_pos hnz

/-- C2: in the `PlayCards` phase, when the trick has an established led suit
`S` and the acting player holds at least one card of suit `S`, every action
returned by `possible_actions()` is a card of suit `S`. -/
theorem claim2_follow_suit (r : Round) (S : Suite)
    (hph : r.phase = .PlayCards)
    (hS : r.trick.suite_to_follow = some S)
    (hhold : ∃ c : Card, c.index < 32 ∧ (r.playerCards r.turn).testBit c.index = true ∧
      c.suite = S) :
    ∀ a, r.possible_actions.has a = true → ∃ c : Card, a = .playCard c ∧ c.suite = S := by
  have hnz : r.playerCards r.turn &&& S.mask ≠ 0 := by
    have hs : Stack.has_suite (r.playerCards r.turn) S = true := (has_suite_iff _ _).mpr hhold
    rw [Stack.has_suite, bne_iff_ne] at hs
    exact hs
  intro a ha
  unfold Round.possible_actions at ha
  rw [hph] at ha
  dsimp only at ha
  unfold Round.possible_card_actions at ha
  cases a with
  | pickTrump t => simp [ActionCollection.has] at ha
  | playCard c =>
    refine ⟨c, rfl, ?_⟩
    simp only [ActionCollection.has] at ha
    have h1 : (r.followFiltered).testBit c.index = true :=
      overtrumpFiltered_subset r _ c.index ha
    rw [followFiltered_of_can_follow r S hS hnz] at h1
    have h2 := testBit_land_right h1
    rw [testBit_suite_mask] at h2
    rw [Card.suite, h2, fromNat_toNat]

/-- Witness for `claim2_follow_suit` at the concrete state `rOvertrump`. -/
theorem claim2_follow_suit_witness :
    (rOvertrump.phase = .PlayCards ∧
      rOvertrump.trick.suite_to_follow = some .Pijkens ∧
      (1 : Nat) < 32 ∧ (rOvertrump.playerCards rOvertrump.turn).testBit 1 = true ∧
      (⟨1⟩ : Card).suite = .Pijkens) ∧
    (∀ a, rOvertrump.possible_actions.has a = true →
      ∃ c : Card, a = .playCard c ∧ c.suite = .Pijkens) :=
  ⟨⟨by decide, by decide, by decide, by decide, by decide⟩,
    claim2_follow_suit rOvertrump .Pijkens (by decide) (by decide)
      ⟨⟨1⟩, by decide, by decide, by decide⟩⟩

/-- C1 (as stated) is false on the code: at `rOvertrump` the opposing team is
winning with the trump Koeken 2, the actor holds the strictly higher trump
Koeken 5, yet `possible_actions()` contains the non-trump Pijkens 1 card,
because the follow-suit filter applies first and the overtrump intersection
with the remaining led-suit cards is empty. -/
theorem claim1_counterexample :
    rOvertrump.phase = .PlayCards ∧
    rOvertrump.trick.trump = some Suite.Koeken ∧
    rOvertrump.trick.winner = some (⟨26⟩, 1) ∧
    (⟨26⟩ : Card).suite = Suite.Koeken ∧
    (1 : Nat) % 2 ≠ rOvertrump.turn % 2 ∧
    (rOvertrump.playerCards rOvertrump.turn).testBit 29 = true ∧
    (⟨29⟩ : Card).suite = Suite.Koeken ∧
    (⟨26⟩ : Card).rank < (⟨29⟩ : Card).rank ∧
    rOvertrump.possible_actions.has (.playCard ⟨1⟩) = true ∧
    (⟨1⟩ : Card).suite ≠ Suite.Koeken := by
  decide

/-- C1 amended: with the extra premise that a strictly higher trump survives
the follow-suit filter (in particular whenever the actor cannot follow the
led suit), `possible_actions()` returns only trumps strictly above the
current winning trump card. -/
theorem claim1_overtrump_amended (r : Round) (t : Suite) (wc : Card) (wp : Nat)
    (hph : r.phase = .PlayCards)
    (htr : r.trick.trump = some t)
    (hw : r.trick.winner = some (wc, wp))
    (hteam : wp % 2 ≠ r.turn % 2)
    (hwt : wc.suite = t)
    (hhigh : ∃ c : Card, c.index < 32 ∧ r.followFiltered.testBit c.index = true ∧
      c.suite = t ∧ wc.rank < c.rank) :
    ∀ a, r.possible_actions.has a = true →
      ∃ c : Card, a = .playCard c ∧ c.suite = t ∧ wc.rank < c.rank := by
  obtain ⟨cw, hc32, hcF, hcs, hcr⟩ := hhigh
  have hdiv : cw.index / 8 = wc.suite.toNat := by
    rw [hwt, ← fromNat_eq_iff _ (by omega) t]
    exact hcs
  have hmask : (Stack.all_above wc &&& wc.suite.mask).testBit cw.index = true := by
    rw [Nat.testBit_land, Bool.and_eq_true]
    refine ⟨(testBit_all_above wc cw.index).mpr ⟨hdiv, ?_⟩, (testBit_suite_mask _ _).mpr hdiv⟩
    exact hcr
  have hnz : r.followFiltered &&& (Stack.all_above wc &&& wc.suite.mask) ≠ 0 := by
    refine ne_zero_of_testBit (i := cw.index) ?_
    rw [Nat.testBit_land, hcF, hmask]
    rfl
  intro a ha
  unfold Round.possible_actions at ha
  rw [hph] at ha
  dsimp only at ha
  unfold Round.possible_card_actions Round.overtrumpFiltered at ha
  rw [hw] at ha
  dsimp only at ha
  rw [if_pos hteam, htr] at ha
  dsimp only at ha
  rw [if_neg (show ¬ wc.suite ≠ t by simp [hwt]), if_pos hnz] at ha
  cases a with
  | pickTrump t' => simp [ActionCollection.has] at ha
  | playCard c =>
    simp only [ActionCollection.has] at ha
    have hm := testBit_land_right ha
    have h1 := (testBit_all_above wc c.index).mp (testBit_land_left hm)
    refine ⟨c, rfl, ?_, h1.2⟩
    rw [Card.suite, h1.1, fromNat_toNat, hwt]

/-- Witness for `claim1_overtrump_amended` at the concrete state
`rOvertrumpVoid`, where the actor cannot follow the led suit. -/
theorem claim1_overtrump_amended_witness :
    (rOvertrumpVoid.phase = .PlayCards ∧
      rOvertrumpVoid.trick.trump = some Suite.Koeken ∧
      rOvertrumpVoid.trick.winner = some (⟨26⟩, 1) ∧
      (1 : Nat) % 2 ≠ rOvertrumpVoid.turn % 2 ∧
      (⟨26⟩ : Card).suite = Suite.Koeken ∧
      (29 : Nat) < 32 ∧ rOvertrumpVoid.followFiltered.testBit 29 = true ∧
      (⟨29⟩ : Card).suite = Suite.Koeken ∧ (⟨26⟩ : Card).rank < (⟨29⟩ : Card).rank) ∧
    (∀ a, rOvertrumpVoid.possible_actions.has a = true →
      ∃ c : Card, a = .playCard c ∧ c.suite = Suite.Koeken ∧ (⟨26⟩ : Card).rank < c.rank) :=
  ⟨⟨by decide, by decide, by decide, by decide, by decide, by decide, by decide, by decide,
     by decide⟩,
    claim1_overtrump_amended rOvertrumpVoid Suite.Koeken ⟨26⟩ 1 (by decide) (by decide)
      (by decide) (by decide) (by decide)
      ⟨⟨29⟩, by decide, by decide, by decide, by decide⟩⟩

/-- Bit-level content of `possible_trump_actions`: a suit is offered exactly
when the dealer's hand meets its mask. -/
theorem possible_trump_actions_has (r : Round) (su : Suite) :
    r.possible_trump_actions.has (.pickTrump (some su)) =
      Stack.has_suite (r.playerCards r.dealer) su := by
  unfold Round.possible_trump_actions
  dsimp only [List.foldl]
  cases h0 : Stack.has_suite (r.playerCards r.dealer) .Pijkens <;>
    cases h1 : Stack.has_suite (r.playerCards r.dealer) .Klavers <;>
      cases h2 : Stack.has_suite (r.playerCards r.dealer) .Harten <;>
        cases h3 : Stack.has_suite (r.playerCards r.dealer) .Koeken <;>
          cases su <;>
            simp only [h0, h1, h2, h3, if_true, if_false, Bool.false_eq_true,
              ActionCollection.has, Suite.toNat] <;> rfl

/-- C3: in the `PickTrump` phase the choosable suits are exactly those the
dealer holds at least one card of, and the no-trump option is always a
member of the returned collection. -/
theorem claim3_trump_options (r : Round) (hph : r.phase = .PickTrump) :
    (∀ su : Suite, r.possible_actions.has (.pickTrump (some su)) = true ↔
        ∃ c : Card, c.index < 32 ∧ (r.playerCards r.dealer).testBit c.index = true ∧
          c.suite = su) ∧
    r.possible_actions.has (.pickTrump none) = true := by
  have hpa : r.possible_actions = r.possible_trump_actions := by
    unfold Round.possible_actions
    rw [hph]
  constructor
  · intro su
    rw [hpa, possible_trump_actions_has, has_suite_iff]
  · rw [hpa]
    unfold Round.possible_trump_actions
    rfl

/-- Witness for `claim3_trump_options` at the concrete state `rPick`. -/
theorem claim3_trump_options_witness :
    rPick.phase = .PickTrump ∧
    (rPick.possible_actions.has (.pickTrump (some .Pijkens)) = true ↔
      ∃ c : Card, c.index < 32 ∧ (rPick.playerCards rPick.dealer).testBit c.index = true ∧
        c.suite = .Pijkens) ∧
    rPick.possible_actions.has (.pickTrump none) = true :=
  ⟨by decide, (claim3_trump_options rPick (by decide)).1 .Pijkens,
    (claim3_trump_options rPick (by decide)).2⟩

/-- C10: every constructed `PickTrump` state has the dealer to act (and
`Round::new` puts `turn` at the dealer's left-hand neighbour); applying any
`PickTrump` action switches the phase to `PlayCards` with the dealer's
left-hand neighbour to act. -/
theorem claim10_dealer_then_left_neighbour :
    (∀ (d : Nat) (rng : List Nat),
      (Round.new d rng).phase = .PickTrump ∧ (Round.new d rng).dealer = d ∧
        (Round.new d rng).turn = (d + 1) % 4) ∧
    (∀ (r : Round) (t : Option Suite), r.phase = .PickTrump →
      r.turn = (r.dealer + 1) % 4 →
      r.stateTurn = r.dealer ∧
      (r.apply_action (.pickTrump t)).phase = .PlayCards ∧
      (r.apply_action (.pickTrump t)).stateTurn = (r.dealer + 1) % 4) := by
  constructor
  · intro d rng
    exact ⟨rfl, rfl, rfl⟩
  · intro r t hph hturn
    refine ⟨?_, rfl, ?_⟩
    · unfold Round.stateTurn
      rw [hph]
    · unfold Round.apply_action Round.set_trump Round.stateTurn
      dsimp only
      exact hturn

/-- Witness for `claim10_dealer_then_left_neighbour` at the concrete state
`rPick`. -/
theorem claim10_dealer_then_left_neighbour_witness :
    rPick.phase = .PickTrump ∧ rPick.turn = (rPick.dealer + 1) % 4 ∧
    (rPick.stateTurn = rPick.dealer ∧
      (rPick.apply_action (.pickTrump none)).phase = .PlayCards ∧
      (rPick.apply_action (.pickTrump none)).stateTurn = (rPick.dealer + 1) % 4) :=
  ⟨by decide, by decide,
    claim10_dealer_then_left_neighbour.2 rPick none (by decide) (by decide)⟩

/-- C8: on a terminal state the reward from perspective `p` is `1`, `0` or
`1/2` by strict comparison of the two team scores, the rewards of the two
teams sum to `1`, and on a non-terminal state `reward` is the modelled
assertion failure (`none`). -/
theorem claim8_reward_symmetry (r : Round) (p : Nat) :
    (r.is_terminal = true →
      (r.scores (1 - p % 2) < r.scores (p % 2) →
        r.reward p = some 1 ∧ r.reward (p + 1) = some 0) ∧
      (r.scores (p % 2) < r.scores (1 - p % 2) →
        r.reward p = some 0 ∧ r.reward (p + 1) = some 1) ∧
      (r.scores (p % 2) = r.scores (1 - p % 2) →
        r.reward p = some (1 / 2) ∧ r.reward (p + 1) = some (1 / 2)) ∧
      (∃ a b : ℚ, r.reward p = some a ∧ r.reward (p + 1) = some b ∧ a + b = 1)) ∧
    (r.is_terminal = false → r.reward p = none) := by
  have hp1 : (p + 1) % 2 = 1 - p % 2 := by omega
  have hp2 : 1 - (1 - p % 2) = p % 2 := by omega
  constructor
  · intro ht
    have hr : ∀ q : Nat, r.reward q =
        some (match compare (r.scores (q % 2)) (r.scores (1 - q % 2)) with
          | .gt => 1
          | .lt => 0
          | .eq => 1 / 2) := by
      intro q
      unfold Round.reward
      rw [ht]
      rfl
    refine ⟨?_, ?_, ?_, ?_⟩
    · intro h
      rw [hr p, hr (p + 1), hp1, hp2, Nat.compare_eq_gt.mpr h, Nat.compare_eq_lt.mpr h]
      exact ⟨rfl, rfl⟩
    · intro h
      rw [hr p, hr (p + 1), hp1, hp2, Nat.compare_eq_lt.mpr h, Nat.compare_eq_gt.mpr h]
      exact ⟨rfl, rfl⟩
    · intro h
      rw [hr p, hr (p + 1), hp1, hp2, Nat.compare_eq_eq.mpr h, Nat.compare_eq_eq.mpr h.symm]
      exact ⟨rfl, rfl⟩
    · rcases Nat.lt_trichotomy (r.scores (p % 2)) (r.scores (1 - p % 2)) with h | h | h
      · refine ⟨0, 1, ?_, ?_, by norm_num⟩
        · rw [hr p, Nat.compare_eq_lt.mpr h]
        · rw [hr (p + 1), hp1, hp2, Nat.compare_eq_gt.mpr h]
      · refine ⟨1 / 2, 1 / 2, ?_, ?_, by norm_num⟩
        · rw [hr p, Nat.compare_eq_eq.mpr h]
        · rw [hr (p + 1), hp1, hp2, Nat.compare_eq_eq.mpr h.symm]
      · refine ⟨1, 0, ?_, ?_, by norm_num⟩
        · rw [hr p, Nat.compare_eq_gt.mpr h]
        · rw [hr (p + 1), hp1, hp2, Nat.compare_eq_lt.mpr h]
  · intro ht
    unfold Round.reward
    rw [ht]
    rfl

/-- Witness for `claim8_reward_symmetry` at the concrete terminal state
`rTerm`. -/
theorem claim8_reward_symmetry_witness :
    rTerm.is_terminal = true ∧
    (rTerm.scores (1 - 0 % 2) < rTerm.scores (0 % 2) →
      rTerm.reward 0 = some 1 ∧ rTerm.reward 1 = some 0) ∧
    (∃ a b : ℚ, rTerm.reward 0 = some a ∧ rTerm.reward 1 = some b ∧ a + b = 1) :=
  ⟨by decide, ((claim8_reward_symmetry rTerm 0).1 (by decide)).1,
    ((claim8_reward_symmetry rTerm 0).1 (by decide)).2.2.2⟩

/-- The winner fold of a trick, once seeded with a running winner, always
produces a winner. -/
theorem winner_foldl_some (trump : Option Suite) (l : List (Card × Nat)) (w : Card × Nat) :
    ∃ w', l.foldl
      (fun acc e =>
        match acc with
        | none => some e
        | some w => if Trick.beats trump w.1 e.1 then some e else some w)
      (some w) = some w' := by
  induction l generalizing w with
  | nil => exact ⟨w, rfl⟩
  | cons e l ih =>
    dsimp only [List.foldl]
    split
    · exact ih e
    · exact ih w

/-- A nonempty trick has a winner. -/
theorem winner_some_of_ne_nil (t : Trick) (h : t.cards ≠ []) :
    ∃ wc wp, t.winner = some (wc, wp) := by
  unfold Trick.winner
  rcases hc : t.cards with _ | ⟨e, l⟩
  · exact absurd hc h
  · dsimp only [List.foldl]
    obtain ⟨⟨wc, wp⟩, hw⟩ := winner_foldl_some t.trump l e
    exact ⟨wc, wp, hw⟩

/-- C7: in the `PlayCards` phase, the fourth card of a trick adds the trick's
score to the winning team, puts the turn at the winner and clears the
trick; any earlier card advances the turn to the next player modulo 4. -/
theorem claim7_trick_resolution :
    (∀ (r : Round) (c : Card), r.phase = .PlayCards → r.trick.cards.length = 3 →
      ∃ wc wp, (r.trick.play c r.turn).winner = some (wc, wp) ∧
        (r.apply_action (.playCard c)).scores (wp % 2) =
          r.scores (wp % 2) + (r.trick.play c r.turn).score ∧
        (∀ tm, tm ≠ wp % 2 → (r.apply_action (.playCard c)).scores tm = r.scores tm) ∧
        (r.apply_action (.playCard c)).turn = wp ∧
        (r.apply_action (.playCard c)).trick.cards = []) ∧
    (∀ (r : Round) (c : Card), r.phase = .PlayCards → r.trick.cards.length < 3 →
      (r.apply_action (.playCard c)).turn = (r.turn + 1) % 4 ∧
      (∀ tm, (r.apply_action (.playCard c)).scores tm = r.scores tm) ∧
      (r.apply_action (.playCard c)).trick.cards = r.trick.cards ++ [(c, r.turn)]) := by
  constructor
  · intro r c hph hlen
    have hfin : (r.trick.play c r.turn).is_finished = true := by
      simp [Trick.is_finished, Trick.play, hlen]
    have hne : (r.trick.play c r.turn).cards ≠ [] := by
      simp [Trick.play]
    obtain ⟨wc, wp, hw⟩ := winner_some_of_ne_nil _ hne
    refine ⟨wc, wp, hw, ?_⟩
    simp only [Round.apply_action, Round.play_card, Round.on_trick_finish, hfin, if_true, hw]
    exact ⟨by simp, fun tm htm => by simp [htm], trivial, rfl⟩
  · intro r c hph hlen
    have hfin : (r.trick.play c r.turn).is_finished = false := by
      have hne4 : (r.trick.play c r.turn).cards.length ≠ 4 := by
        simp only [Trick.play, List.length_append, List.length_cons, List.length_nil]
        omega
      simp only [Trick.is_finished]
      exact beq_eq_false_iff_ne.mpr hne4
    simp only [Round.apply_action, Round.play_card, hfin, Bool.false_eq_true, if_false]
    exact ⟨trivial, fun tm => trivial, rfl⟩

/-- Witness for `claim7_trick_resolution` at the concrete state `rTrick3`. -/
theorem claim7_trick_resolution_witness :
    (rTrick3.phase = .PlayCards ∧ rTrick3.trick.cards.length = 3) ∧
    (∃ wc wp, (rTrick3.trick.play ⟨3⟩ rTrick3.turn).winner = some (wc, wp) ∧
      (rTrick3.apply_action (.playCard ⟨3⟩)).scores (wp % 2) =
        rTrick3.scores (wp % 2) + (rTrick3.trick.play ⟨3⟩ rTrick3.turn).score ∧
      (∀ tm, tm ≠ wp % 2 → (rTrick3.apply_action (.playCard ⟨3⟩)).scores tm =
        rTrick3.scores tm) ∧
      (rTrick3.apply_action (.playCard ⟨3⟩)).turn = wp ∧
      (rTrick3.apply_action (.playCard ⟨3⟩)).trick.cards = []) :=
  ⟨⟨by decide, by decide⟩,
    claim7_trick_resolution.1 rTrick3 ⟨3⟩ (by decide) (by decide)⟩

/-- A legal child carries an edge whose action is legal. -/
theorem legalChild_elim {tr : SearchTree} {legal : ActionCollection} {cid : Nat}
    (h : tr.legalChild legal cid = true) :
    ∃ e, (tr.nodes.getD cid default).edge = some e ∧ legal.has e.action = true := by
  unfold SearchTree.legalChild at h
  rcases he : (tr.nodes.getD cid default).edge with _ | e <;> rw [he] at h
  · exact absurd h (by simp)
  · exact ⟨e, rfl, h⟩

/-- The visit-count fold keeps an element of the accumulator-or-list whose
visit count dominates the accumulator and every list element. -/
theorem maxBySims_foldl_spec (tr : SearchTree) (cs : List Nat) (acc : Nat) :
    (cs.foldl
        (fun b x =>
          if (tr.nodes.getD b default).numSims ≤ (tr.nodes.getD x default).numSims then x else b)
        acc = acc ∨
      cs.foldl
        (fun b x =>
          if (tr.nodes.getD b default).numSims ≤ (tr.nodes.getD x default).numSims then x else b)
        acc ∈ cs) ∧
    (tr.nodes.getD acc default).numSims ≤
      (tr.nodes.getD (cs.foldl
        (fun b x =>
          if (tr.nodes.getD b default).numSims ≤ (tr.nodes.getD x default).numSims then x else b)
        acc) default).numSims ∧
    ∀ x ∈ cs, (tr.nodes.getD x default).numSims ≤
      (tr.nodes.getD (cs.foldl
        (fun b x =>
          if (tr.nodes.getD b default).numSims ≤ (tr.nodes.getD x default).numSims then x else b)
        acc) default).numSims := by
  induction cs generalizing acc with
  | nil => exact ⟨Or.inl rfl, le_refl _, fun x hx => absurd hx (List.not_mem_nil x)⟩
  | cons y cs ih =>
    dsimp only [List.foldl]
    by_cases hc : (tr.nodes.getD acc default).numSims ≤ (tr.nodes.getD y default).numSims
    · rw [if_pos hc]
      obtain ⟨hmem, hacc, hall⟩ := ih y
      refine ⟨?_, le_trans hc hacc, ?_⟩
      · rcases hmem with h | h
        · exact Or.inr (by rw [h]; exact List.mem_cons_self y cs)
        · exact Or.inr (List.mem_cons_of_mem y h)
      · intro x hx
        rcases List.mem_cons.mp hx with h | h
        · exact h ▸ hacc
        · exact hall x h
    · rw [if_neg hc]
      obtain ⟨hmem, hacc, hall⟩ := ih acc
      refine ⟨?_, hacc, ?_⟩
      · rcases hmem with h | h
        · exact Or.inl h
        · exact Or.inr (List.mem_cons_of_mem y h)
      · intro x hx
        rcases List.mem_cons.mp hx with h | h
        · subst h
          exact le_trans (le_of_not_le hc) hacc
        · exact hall x h

/-- Specification of `maxBySims`: the result is a list member with maximal
visit count. -/
theorem maxBySims_spec (tr : SearchTree) (l : List Nat) (m : Nat)
    (h : tr.maxBySims l = some m) :
    m ∈ l ∧ ∀ x ∈ l, (tr.nodes.getD x default).numSims ≤ (tr.nodes.getD m default).numSims := by
  rcases l with _ | ⟨c, cs⟩
  · exact absurd h (by simp [SearchTree.maxBySims])
  · unfold SearchTree.maxBySims at h
    obtain ⟨hmem, hacc, hall⟩ := maxBySims_foldl_spec tr cs c
    have hm : cs.foldl
        (fun b x =>
          if (tr.nodes.getD b default).numSims ≤ (tr.nodes.getD x default).numSims then x else b)
        c = m := by
      injection h
    subst hm
    constructor
    · rcases hmem with h' | h'
      · rw [h']
        exact List.mem_cons_self c cs
      · exact List.mem_cons_of_mem c h'
    · intro x hx
      rcases List.mem_cons.mp hx with h' | h'
      · exact h' ▸ hacc
      · exact hall x h'

/-- C9: `best_action` never returns a currently illegal action, and whenever
some root child's edge action is legal it returns the edge action of a
legal child of maximal visit count among the legal children. -/
theorem claim9_best_action (tr : SearchTree) (nodeId : Nat) (r : Round) :
    (∀ a, tr.best_action nodeId r = some a → r.possible_actions.has a = true) ∧
    ((∃ cid ∈ (tr.nodes.getD nodeId default).childIds,
        tr.legalChild r.possible_actions cid = true) →
      ∃ cid, cid ∈ (tr.nodes.getD nodeId default).childIds ∧
        tr.legalChild r.possible_actions cid = true ∧
        tr.best_action nodeId r = (tr.nodes.getD cid default).edge.map Edge.action ∧
        ∀ cid' ∈ (tr.nodes.getD nodeId default).childIds,
          tr.legalChild r.possible_actions cid' = true →
            (tr.nodes.getD cid' default).numSims ≤ (tr.nodes.getD cid default).numSims) := by
  constructor
  · intro a ha
    simp only [SearchTree.best_action] at ha
    rcases hm : tr.maxBySims
        ((tr.nodes.getD nodeId default).childIds.filter
          (tr.legalChild r.possible_actions)) with _ | cid <;> rw [hm] at ha <;>
        dsimp only at ha
    · exact absurd ha (by simp)
    · obtain ⟨hmem, _⟩ := maxBySims_spec tr _ cid hm
      have hleg : tr.legalChild r.possible_actions cid = true :=
        (List.mem_filter.mp hmem).2
      obtain ⟨e, he, hhas⟩ := legalChild_elim hleg
      rw [he] at ha
      have : a = e.action := by
        simpa using ha.symm
      rw [this]
      exact hhas
  · rintro ⟨cid0, hmem0, hleg0⟩
    have hcand : cid0 ∈ (tr.nodes.getD nodeId default).childIds.filter
        (tr.legalChild r.possible_actions) := List.mem_filter.mpr ⟨hmem0, hleg0⟩
    rcases hm : tr.maxBySims
        ((tr.nodes.getD nodeId default).childIds.filter
          (tr.legalChild r.possible_actions)) with _ | cid
    · rcases hl : (tr.nodes.getD nodeId default).childIds.filter
          (tr.legalChild r.possible_actions) with _ | ⟨c, cs⟩
      · rw [hl] at hcand
        exact absurd hcand (List.not_mem_nil cid0)
      · rw [hl] at hm
        exact absurd hm (by simp [SearchTree.maxBySims])
    · obtain ⟨hmem, hall⟩ := maxBySims_spec tr _ cid hm
      refine ⟨cid, (List.mem_filter.mp hmem).1, (List.mem_filter.mp hmem).2, ?_, ?_⟩
      · simp only [SearchTree.best_action]
        rw [hm]
      · intro cid' hmem' hleg'
        exact hall cid' (List.mem_filter.mpr ⟨hmem', hleg'⟩)

/-- Witness for `claim9_best_action` at the concrete arena `tree0` and state
`rPick`. -/
theorem claim9_best_action_witness :
    (∃ cid ∈ (tree0.nodes.getD 0 default).childIds,
      tree0.legalChild rPick.possible_actions cid = true) ∧
    (∃ cid, cid ∈ (tree0.nodes.getD 0 default).childIds ∧
      tree0.legalChild rPick.possible_actions cid = true ∧
      tree0.best_action 0 rPick = (tree0.nodes.getD cid default).edge.map Edge.action ∧
      ∀ cid' ∈ (tree0.nodes.getD 0 default).childIds,
        tree0.legalChild rPick.possible_actions cid' = true →
          (tree0.nodes.getD cid' default).numSims ≤ (tree0.nodes.getD cid default).numSims) :=
  ⟨⟨1, by decide, by decide⟩,
    (claim9_best_action tree0 0 rPick).2 ⟨1, by decide, by decide⟩⟩

/-- The position permutation performed by an array swap. -/
def swapNat (i j : Nat) : Nat → Nat :=
  fun x => if x = i then j else if x = j then i else x

theorem swapFn_apply (f : Nat → Nat) (i j x : Nat) :
    swapFn f i j x = f (swapNat i j x) := by
  unfold swapFn swapNat
  by_cases h1 : x = i <;> by_cases h2 : x = j <;> by_cases h3 : j = i <;>
    simp_all

theorem swapNat_involutive (i j : Nat) (x : Nat) : swapNat i j (swapNat i j x) = x := by
  unfold swapNat
  by_cases h1 : x = i <;> by_cases h2 : x = j <;> by_cases h3 : j = i <;> simp_all

theorem swapNat_bijOn {i j n : Nat} (hi : i < n) (hj : j < n) :
    Set.BijOn (swapNat i j) (Set.Iio n) (Set.Iio n) := by
  have hmaps : Set.MapsTo (swapNat i j) (Set.Iio n) (Set.Iio n) := by
    intro x hx
    unfold swapNat
    by_cases h1 : x = i <;> by_cases h2 : x = j <;> simp_all [Set.mem_Iio]
  refine ⟨hmaps, ?_, ?_⟩
  · intro a _ b _ hab
    have := congrArg (swapNat i j) hab
    rwa [swapNat_involutive, swapNat_involutive] at this
  · intro y hy
    exact ⟨swapNat i j y, hmaps hy, swapNat_involutive i j y⟩

theorem swapFn_bijOn {f : Nat → Nat} {S : Set Nat} {i j n : Nat}
    (hf : Set.BijOn f (Set.Iio n) S) (hi : i < n) (hj : j < n) :
    Set.BijOn (swapFn f i j) (Set.Iio n) S := by
  have heq : swapFn f i j = f ∘ swapNat i j := funext fun x => swapFn_apply f i j x
  rw [heq]
  exact Set.BijOn.comp hf (swapNat_bijOn hi hj)

theorem swapFn_frozen (f : Nat → Nat) {i j p : Nat} (hpi : i < p) (hpj : j < p) :
    swapFn f i j p = f p := by
  unfold swapFn
  rw [if_neg (by omega), if_neg (by omega)]

/-- Segment characterization is preserved by a loop step that does not touch
the segment (the swap only moves positions at or below the current index
`i`, and `i` lies outside the segment). -/
theorem seg_char_keep {idx idx' : Nat → Nat} {c : Nat} {i lo hi : Nat}
    (hfrozen : ∀ p, i < p → idx' p = idx p)
    (hnotin : i < lo ∨ hi ≤ i)
    (hold : ∀ x, c.testBit x = true ↔ ∃ q, lo ≤ q ∧ q < hi ∧ i + 1 ≤ q ∧ idx q = x) :
    ∀ x, c.testBit x = true ↔ ∃ q, lo ≤ q ∧ q < hi ∧ i ≤ q ∧ idx' q = x := by
  intro x
  rw [hold x]
  constructor
  · rintro ⟨q, h1, h2, h3, h4⟩
    exact ⟨q, h1, h2, by omega, by rw [hfrozen q (by omega)]; exact h4⟩
  · rintro ⟨q, h1, h2, h3, h4⟩
    have hq : i + 1 ≤ q := by omega
    exact ⟨q, h1, h2, hq, by rw [← hfrozen q (by omega)]; exact h4⟩

/-- Segment characterization after a loop step that records `idx' i` into the
segment's stack. -/
theorem seg_char_add {idx idx' : Nat → Nat} {c : Nat} {i lo hi : Nat}
    (hfrozen : ∀ p, i < p → idx' p = idx p)
    (hin : lo ≤ i ∧ i < hi)
    (hold : ∀ x, c.testBit x = true ↔ ∃ q, lo ≤ q ∧ q < hi ∧ i + 1 ≤ q ∧ idx q = x) :
    ∀ x, (c ||| 1 <<< idx' i).testBit x = true ↔
      ∃ q, lo ≤ q ∧ q < hi ∧ i ≤ q ∧ idx' q = x := by
  intro x
  rw [Nat.testBit_lor, Bool.or_eq_true, testBit_one_shiftLeft, decide_eq_true_eq, hold x]
  constructor
  · rintro (⟨q, h1, h2, h3, h4⟩ | hx)
    · exact ⟨q, h1, h2, by omega, by rw [hfrozen q (by omega)]; exact h4⟩
    · exact ⟨i, hin.1, hin.2, le_refl i, hx.symm⟩
  · rintro ⟨q, h1, h2, h3, h4⟩
    rcases eq_or_lt_of_le h3 with hq | hq
    · exact Or.inr (by rw [← hq] at h4; exact h4.symm)
    · exact Or.inl ⟨q, h1, h2, hq, by rw [← hfrozen q hq]; exact h4⟩

/-- Loop invariant of `deal_cards`: after `k` iterations the index map is a
permutation of the positions below 32, and each accumulated stack holds
exactly the index values recorded at the already-processed positions of its
player's segment. -/
theorem dealIter_spec (rng : List Nat) (k : Nat) (hk : k ≤ 24) :
    Set.BijOn (dealIter rng k).idx (Set.Iio 32) (Set.Iio 32) ∧
    (∀ x, (dealIter rng k).c0.testBit x = true ↔
      ∃ q, 8 ≤ q ∧ q < 16 ∧ 32 - k ≤ q ∧ (dealIter rng k).idx q = x) ∧
    (∀ x, (dealIter rng k).c1.testBit x = true ↔
      ∃ q, 16 ≤ q ∧ q < 24 ∧ 32 - k ≤ q ∧ (dealIter rng k).idx q = x) ∧
    (∀ x, (dealIter rng k).c2.testBit x = true ↔
      ∃ q, 24 ≤ q ∧ q < 32 ∧ 32 - k ≤ q ∧ (dealIter rng k).idx q = x) := by
  induction k with
  | zero =>
    refine ⟨Set.bijOn_id _, ?_, ?_, ?_⟩ <;>
      intro x <;>
        simp only [dealIter, Nat.zero_testBit, Bool.false_eq_true, false_iff] <;>
          rintro ⟨q, h1, h2, h3, h4⟩ <;> omega
  | succ k ih =>
    obtain ⟨hbij, hc0, hc1, hc2⟩ := ih (by omega)
    set st := dealIter rng k with hst
    have hi : 31 - k < 32 := by omega
    have hilo : 8 ≤ 31 - k := by omega
    have hj : (rng.getD k 0) % (31 - k + 1) < 32 := by
      have := Nat.mod_lt (rng.getD k 0) (y := 31 - k + 1) (by omega)
      omega
    have hjle : (rng.getD k 0) % (31 - k + 1) ≤ 31 - k := by
      have := Nat.mod_lt (rng.getD k 0) (y := 31 - k + 1) (by omega)
      omega
    have hbij' : Set.BijOn (swapFn st.idx (31 - k) ((rng.getD k 0) % (31 - k + 1)))
        (Set.Iio 32) (Set.Iio 32) := swapFn_bijOn hbij hi hj
    have hfrozen : ∀ p, 31 - k < p →
        swapFn st.idx (31 - k) ((rng.getD k 0) % (31 - k + 1)) p = st.idx p := by
      intro p hp
      exact swapFn_frozen st.idx hp (by omega)
    have hstep : dealIter rng (k + 1) = dealStep st (31 - k) (rng.getD k 0) := rfl
    have h32 : 32 - (k + 1) = 31 - k := by omega
    rw [hstep]
    unfold dealStep
    dsimp only
    by_cases hb1 : (31 - k) / 8 = 1
    · rw [if_pos hb1]
      dsimp only
      have hin : 8 ≤ 31 - k ∧ 31 - k < 16 := by omega
      refine ⟨hbij', ?_, ?_, ?_⟩
      · intro x
        rw [h32]
        exact seg_char_add hfrozen hin (fun y => by rw [show 31 - k + 1 = 32 - k by omega]; exact hc0 y) x
      · intro x
        rw [h32]
        exact seg_char_keep hfrozen (by omega) (fun y => by rw [show 31 - k + 1 = 32 - k by omega]; exact hc1 y) x
      · intro x
        rw [h32]
        exact seg_char_keep hfrozen (by omega) (fun y => by rw [show 31 - k + 1 = 32 - k by omega]; exact hc2 y) x
    · rw [if_neg hb1]
      by_cases hb2 : (31 - k) / 8 = 2
      · rw [if_pos hb2]
        dsimp only
        have hin : 16 ≤ 31 - k ∧ 31 - k < 24 := by omega
        refine ⟨hbij', ?_, ?_, ?_⟩
        · intro x
          rw [h32]
          exact seg_char_keep hfrozen (by omega) (fun y => by rw [show 31 - k + 1 = 32 - k by omega]; exact hc0 y) x
        · intro x
          rw [h32]
          exact seg_char_add hfrozen hin (fun y => by rw [show 31 - k + 1 = 32 - k by omega]; exact hc1 y) x
        · intro x
          rw [h32]
          exact seg_char_keep hfrozen (by omega) (fun y => by rw [show 31 - k + 1 = 32 - k by omega]; exact hc2 y) x
      · rw [if_neg hb2]
        dsimp only
        have hin : 24 ≤ 31 - k ∧ 31 - k < 32 := by omega
        refine ⟨hbij', ?_, ?_, ?_⟩
        · intro x
          rw [h32]
          exact seg_char_keep hfrozen (by omega) (fun y => by rw [show 31 - k + 1 = 32 - k by omega]; exact hc0 y) x
        · intro x
          rw [h32]
          exact seg_char_keep hfrozen (by omega) (fun y => by rw [show 31 - k + 1 = 32 - k by omega]; exact hc1 y) x
        · intro x
          rw [h32]
          exact seg_char_add hfrozen hin (fun y => by rw [show 31 - k + 1 = 32 - k by omega]; exact hc2 y) x

/-- After the full deal loop, the bits of the three accumulated stacks are
the index values of their segments, and the fourth-hand complement
`ALL ^ c0 ^ c1 ^ c2` holds exactly the index values of the remaining
segment `[0, 8)`. -/
theorem deal_final_char (rng : List Nat) :
    ∀ x, (Stack.ALL ^^^ (dealIter rng 24).c0 ^^^ (dealIter rng 24).c1 ^^^
      (dealIter rng 24).c2).testBit x = true ↔
      ∃ q, q < 8 ∧ (dealIter rng 24).idx q = x := by
  obtain ⟨hbij, hc0, hc1, hc2⟩ := dealIter_spec rng 24 (le_refl 24)
  have hmaps := hbij.mapsTo
  have hinj := hbij.injOn
  have hsurj := hbij.surjOn
  intro x
  rw [Nat.testBit_xor, Nat.testBit_xor, Nat.testBit_xor, testBit_ALL]
  by_cases hx : x < 32
  · obtain ⟨q, hq32, hqx⟩ := hsurj hx
    rw [Set.mem_Iio] at hq32
    have key : ∀ (c : Nat) (lo hi : Nat), 8 ≤ lo → hi ≤ 32 →
        (∀ y, c.testBit y = true ↔ ∃ p, lo ≤ p ∧ p < hi ∧ 32 - 24 ≤ p ∧
          (dealIter rng 24).idx p = y) →
        (c.testBit x = true ↔ (lo ≤ q ∧ q < hi)) := by
      intro c lo hi hlo hhi hchar
      rw [hchar x]
      constructor
      · rintro ⟨p, h1, h2, h3, h4⟩
        have hp32 : p < 32 := by omega
        have : p = q := hinj (Set.mem_Iio.mpr hp32) (Set.mem_Iio.mpr hq32)
          (h4.trans hqx.symm)
        omega
      · intro h
        exact ⟨q, h.1, h.2, by omega, hqx⟩
    have hb0 := key _ 8 16 (by omega) (by omega) hc0
    have hb1 := key _ 16 24 (by omega) (by omega) hc1
    have hb2 := key _ 24 32 (by omega) (by omega) hc2
    have hrhs : (∃ p, p < 8 ∧ (dealIter rng 24).idx p = x) ↔ q < 8 := by
      constructor
      · rintro ⟨p, h1, h2⟩
        have : p = q := hinj (Set.mem_Iio.mpr (by omega)) (Set.mem_Iio.mpr hq32)
          (h2.trans hqx.symm)
        omega
      · intro h
        exact ⟨q, h, hqx⟩
    rw [hrhs]
    rcases (by omega : q < 8 ∨ (8 ≤ q ∧ q < 16) ∨ (16 ≤ q ∧ q < 24) ∨
        (24 ≤ q ∧ q < 32)) with h | h | h | h
    · have e0 : (dealIter rng 24).c0.testBit x = false := by
        rw [Bool.eq_false_iff]
        intro hb
        have := hb0.mp hb
        omega
      have e1 : (dealIter rng 24).c1.testBit x = false := by
        rw [Bool.eq_false_iff]
        intro hb
        have := hb1.mp hb
        omega
      have e2 : (dealIter rng 24).c2.testBit x = false := by
        rw [Bool.eq_false_iff]
        intro hb
        have := hb2.mp hb
        omega
      rw [e0, e1, e2]
      simp [hx, h]
    · have e0 : (dealIter rng 24).c0.testBit x = true := hb0.mpr h
      have e1 : (dealIter rng 24).c1.testBit x = false := by
        rw [Bool.eq_false_iff]
        intro hb
        have := hb1.mp hb
        omega
      have e2 : (dealIter rng 24).c2.testBit x = false := by
        rw [Bool.eq_false_iff]
        intro hb
        have := hb2.mp hb
        omega
      rw [e0, e1, e2]
      simp [hx]
      omega
    · have e0 : (dealIter rng 24).c0.testBit x = false := by
        rw [Bool.eq_false_iff]
        intro hb
        have := hb0.mp hb
        omega
      have e1 : (dealIter rng 24).c1.testBit x = true := hb1.mpr h
      have e2 : (dealIter rng 24).c2.testBit x = false := by
        rw [Bool.eq_false_iff]
        intro hb
        have := hb2.mp hb
        omega
      rw [e0, e1, e2]
      simp [hx]
      omega
    · have e0 : (dealIter rng 24).c0.testBit x = false := by
        rw [Bool.eq_false_iff]
        intro hb
        have := hb0.mp hb
        omega
      have e1 : (dealIter rng 24).c1.testBit x = false := by
        rw [Bool.eq_false_iff]
        intro hb
        have := hb1.mp hb
        omega
      have e2 : (dealIter rng 24).c2.testBit x = true := hb2.mpr h
      rw [e0, e1, e2]
      simp [hx]
      omega
  · have ebit : ∀ (c : Nat) (lo hi : Nat),
        (∀ y, c.testBit y = true ↔ ∃ p, lo ≤ p ∧ p < hi ∧ 32 - 24 ≤ p ∧
          (dealIter rng 24).idx p = y) →
        hi ≤ 32 → c.testBit x = false := by
      intro c lo hi hchar hhi
      rw [Bool.eq_false_iff]
      intro hb
      obtain ⟨p, h1, h2, h3, h4⟩ := (hchar x).mp hb
      have : (dealIter rng 24).idx p < 32 :=
        Set.mem_Iio.mp (hmaps (Set.mem_Iio.mpr (by omega)))
      omega
    rw [ebit _ 8 16 hc0 (by omega), ebit _ 16 24 hc1 (by omega),
      ebit _ 24 32 hc2 (by omega)]
    simp [hx]
    rintro p hp
    intro hpx
    have : (dealIter rng 24).idx p < 32 :=
      Set.mem_Iio.mp (hmaps (Set.mem_Iio.mpr (by omega)))
    omega

/-- Cardinality of a stack whose bits are the image of a position segment
under an injective index map. -/
theorem stack_len_of_char (s : Nat) (f : Nat → Nat) (lo hi : Nat)
    (hchar : ∀ x, s.testBit x = true ↔ ∃ q, lo ≤ q ∧ q < hi ∧ f q = x)
    (hinj : Set.InjOn f (Set.Ico lo hi))
    (hlt : ∀ q, lo ≤ q → q < hi → f q < 32) :
    Stack.len s = hi - lo := by
  have himg : (Finset.range 32).filter (fun i => s.testBit i = true) =
      (Finset.Ico lo hi).image f := by
    ext x
    simp only [Finset.mem_filter, Finset.mem_range, Finset.mem_image, Finset.mem_Ico, hchar]
    constructor
    · rintro ⟨hx32, q, hq1, hq2, hq3⟩
      exact ⟨q, ⟨hq1, hq2⟩, hq3⟩
    · rintro ⟨q, ⟨hq1, hq2⟩, hq3⟩
      exact ⟨hq3 ▸ hlt q hq1 hq2, q, hq1, hq2, hq3⟩
  rw [Stack.len, himg, Finset.card_image_of_injOn (by rw [Finset.coe_Ico]; exact hinj),
    Nat.card_Ico]

/-- Two stacks with no common set bit have zero intersection. -/
theorem land_eq_zero_of_no_common (s t : Nat)
    (h : ∀ x, s.testBit x = true → t.testBit x = true → False) : s &&& t = 0 := by
  refine Nat.eq_of_testBit_eq fun i => ?_
  rw [Nat.testBit_land, Nat.zero_testBit]
  cases hs : s.testBit i <;> cases ht : t.testBit i <;> simp_all

/-- Zero intersection of two stacks whose bits come from disjoint position
segments of the same injective index map. -/
theorem land_eq_zero_of_char (s t : Nat) (f : Nat → Nat) (lo1 hi1 lo2 hi2 n : Nat)
    (hs : ∀ x, s.testBit x = true ↔ ∃ q, lo1 ≤ q ∧ q < hi1 ∧ f q = x)
    (ht : ∀ x, t.testBit x = true ↔ ∃ q, lo2 ≤ q ∧ q < hi2 ∧ f q = x)
    (hinj : Set.InjOn f (Set.Iio n)) (h1 : hi1 ≤ n) (h2 : hi2 ≤ n)
    (hdisj : hi1 ≤ lo2 ∨ hi2 ≤ lo1) : s &&& t = 0 := by
  refine land_eq_zero_of_no_common s t fun x hxs hxt => ?_
  obtain ⟨q1, hq1a, hq1b, hq1c⟩ := (hs x).mp hxs
  obtain ⟨q2, hq2a, hq2b, hq2c⟩ := (ht x).mp hxt
  have : q1 = q2 := hinj (Set.mem_Iio.mpr (by omega)) (Set.mem_Iio.mpr (by omega))
    (hq1c.trans hq2c.symm)
  omega

/-- The full deal partition: each dealt hand has 8 cards, the hands are
pairwise disjoint and they cover the whole deck, for every draw list. -/
theorem deal_cards_partition (r : Round) (rng : List Nat) :
    (Stack.len ((r.deal_cards rng).playerCards 0) = 8 ∧
     Stack.len ((r.deal_cards rng).playerCards 1) = 8 ∧
     Stack.len ((r.deal_cards rng).playerCards 2) = 8 ∧
     Stack.len ((r.deal_cards rng).playerCards 3) = 8) ∧
    ((r.deal_cards rng).playerCards 0 &&& (r.deal_cards rng).playerCards 1 = 0 ∧
     (r.deal_cards rng).playerCards 0 &&& (r.deal_cards rng).playerCards 2 = 0 ∧
     (r.deal_cards rng).playerCards 0 &&& (r.deal_cards rng).playerCards 3 = 0 ∧
     (r.deal_cards rng).playerCards 1 &&& (r.deal_cards rng).playerCards 2 = 0 ∧
     (r.deal_cards rng).playerCards 1 &&& (r.deal_cards rng).playerCards 3 = 0 ∧
     (r.deal_cards rng).playerCards 2 &&& (r.deal_cards rng).playerCards 3 = 0) ∧
    ((r.deal_cards rng).playerCards 0 ||| (r.deal_cards rng).playerCards 1 |||
     (r.deal_cards rng).playerCards 2 ||| (r.deal_cards rng).playerCards 3 = Stack.ALL) := by
  obtain ⟨hbij, hc0, hc1, hc2⟩ := dealIter_spec rng 24 (le_refl 24)
  have hmaps := hbij.mapsTo
  have hinj := hbij.injOn
  have hsurj := hbij.surjOn
  have hp0 : (r.deal_cards rng).playerCards 0 = (dealIter rng 24).c0 := rfl
  have hp1 : (r.deal_cards rng).playerCards 1 = (dealIter rng 24).c1 := rfl
  have hp2 : (r.deal_cards rng).playerCards 2 = (dealIter rng 24).c2 := rfl
  have hp3 : (r.deal_cards rng).playerCards 3 =
      Stack.ALL ^^^ (dealIter rng 24).c0 ^^^ (dealIter rng 24).c1 ^^^
        (dealIter rng 24).c2 := rfl
  have hch0 : ∀ x, (dealIter rng 24).c0.testBit x = true ↔
      ∃ q, 8 ≤ q ∧ q < 16 ∧ (dealIter rng 24).idx q = x := by
    intro x
    rw [hc0 x]
    constructor
    · rintro ⟨q, a, b, c, d⟩
      exact ⟨q, a, b, d⟩
    · rintro ⟨q, a, b, d⟩
      exact ⟨q, a, b, by omega, d⟩
  have hch1 : ∀ x, (dealIter rng 24).c1.testBit x = true ↔
      ∃ q, 16 ≤ q ∧ q < 24 ∧ (dealIter rng 24).idx q = x := by
    intro x
    rw [hc1 x]
    constructor
    · rintro ⟨q, a, b, c, d⟩
      exact ⟨q, a, b, d⟩
    · rintro ⟨q, a, b, d⟩
      exact ⟨q, a, b, by omega, d⟩
  have hch2 : ∀ x, (dealIter rng 24).c2.testBit x = true ↔
      ∃ q, 24 ≤ q ∧ q < 32 ∧ (dealIter rng 24).idx q = x := by
    intro x
    rw [hc2 x]
    constructor
    · rintro ⟨q, a, b, c, d⟩
      exact ⟨q, a, b, d⟩
    · rintro ⟨q, a, b, d⟩
      exact ⟨q, a, b, by omega, d⟩
  have hch3 : ∀ x, ((r.deal_cards rng).playerCards 3).testBit x = true ↔
      ∃ q, 0 ≤ q ∧ q < 8 ∧ (dealIter rng 24).idx q = x := by
    intro x
    rw [hp3, deal_final_char rng x]
    constructor
    · rintro ⟨q, a, b⟩
      exact ⟨q, by omega, a, b⟩
    · rintro ⟨q, _, a, b⟩
      exact ⟨q, a, b⟩
  have hlt : ∀ lo hi, hi ≤ 32 → ∀ q, lo ≤ q → q < hi → (dealIter rng 24).idx q < 32 := by
    intro lo hi hhi q _ hq
    exact Set.mem_Iio.mp (hmaps (Set.mem_Iio.mpr (by omega)))
  have hinjseg : ∀ lo hi : Nat, hi ≤ 32 →
      Set.InjOn (dealIter rng 24).idx (Set.Ico lo hi) := by
    intro lo hi hhi
    exact hinj.mono (fun y hy => Set.mem_Iio.mpr (by
      rw [Set.mem_Ico] at hy
      omega))
  refine ⟨⟨?_, ?_, ?_, ?_⟩, ⟨?_, ?_, ?_, ?_, ?_, ?_⟩, ?_⟩
  · rw [hp0]
    exact stack_len_of_char _ _ 8 16 hch0 (hinjseg 8 16 (by omega)) (hlt 8 16 (by omega))
  · rw [hp1]
    exact stack_len_of_char _ _ 16 24 hch1 (hinjseg 16 24 (by omega)) (hlt 16 24 (by omega))
  · rw [hp2]
    exact stack_len_of_char _ _ 24 32 hch2 (hinjseg 24 32 (by omega)) (hlt 24 32 (by omega))
  · exact stack_len_of_char _ _ 0 8 hch3 (hinjseg 0 8 (by omega)) (hlt 0 8 (by omega))
  · rw [hp0, hp1]
    exact land_eq_zero_of_char _ _ _ 8 16 16 24 32 hch0 hch1 hinj (by omega) (by omega)
      (by omega)
  · rw [hp0, hp2]
    exact land_eq_zero_of_char _ _ _ 8 16 24 32 32 hch0 hch2 hinj (by omega) (by omega)
      (by omega)
  · rw [hp0]
    exact land_eq_zero_of_char _ _ _ 8 16 0 8 32 hch0 hch3 hinj (by omega) (by omega)
      (by omega)
  · rw [hp1, hp2]
    exact land_eq_zero_of_char _ _ _ 16 24 24 32 32 hch1 hch2 hinj (by omega) (by omega)
      (by omega)
  · rw [hp1]
    exact land_eq_zero_of_char _ _ _ 16 24 0 8 32 hch1 hch3 hinj (by omega) (by omega)
      (by omega)
  · rw [hp2]
    exact land_eq_zero_of_char _ _ _ 24 32 0 8 32 hch2 hch3 hinj (by omega) (by omega)
      (by omega)
  · refine Nat.eq_of_testBit_eq fun x => ?_
    rw [Nat.testBit_lor, Nat.testBit_lor, Nat.testBit_lor, testBit_ALL, hp0, hp1, hp2]
    by_cases hx : x < 32
    · obtain ⟨q, hq32, hqx⟩ := hsurj hx
      rw [Set.mem_Iio] at hq32
      rw [decide_eq_true hx]
      rcases (by omega : q < 8 ∨ (8 ≤ q ∧ q < 16) ∨ (16 ≤ q ∧ q < 24) ∨
          (24 ≤ q ∧ q < 32)) with h | h | h | h
      · have := (hch3 x).mpr ⟨q, by omega, by omega, hqx⟩
        simp [this]
      · have := (hch0 x).mpr ⟨q, by omega, by omega, hqx⟩
        simp [this]
      · have := (hch1 x).mpr ⟨q, by omega, by omega, hqx⟩
        simp [this]
      · have := (hch2 x).mpr ⟨q, by omega, by omega, hqx⟩
        simp [this]
    · have hb : ∀ (c : Nat) (lo hi : Nat), hi ≤ 32 →
          (∀ y, c.testBit y = true ↔ ∃ q, lo ≤ q ∧ q < hi ∧ (dealIter rng 24).idx q = y) →
          c.testBit x = false := by
        intro c lo hi hhi hchar
        rw [Bool.eq_false_iff]
        intro hbit
        obtain ⟨q, a, b, hqx⟩ := (hchar x).mp hbit
        have := hlt lo hi hhi q a b
        omega
      rw [hb _ 8 16 (by omega) hch0, hb _ 16 24 (by omega) hch1,
        hb _ 24 32 (by omega) hch2, hb _ 0 8 (by omega) hch3]
      simp [hx]

/-- C5: after `deal_cards` runs, for any draw sequence, the four hands are
pairwise disjoint, each holds exactly 8 cards, and together they are the
full 32-card deck. -/
theorem claim5_deal_partition (r : Round) (rng : List Nat) :
    Stack.len ((r.deal_cards rng).playerCards 0) = 8 ∧
    Stack.len ((r.deal_cards rng).playerCards 1) = 8 ∧
    Stack.len ((r.deal_cards rng).playerCards 2) = 8 ∧
    Stack.len ((r.deal_cards rng).playerCards 3) = 8 ∧
    (r.deal_cards rng).playerCards 0 &&& (r.deal_cards rng).playerCards 1 = 0 ∧
    (r.deal_cards rng).playerCards 0 &&& (r.deal_cards rng).playerCards 2 = 0 ∧
    (r.deal_cards rng).playerCards 0 &&& (r.deal_cards rng).playerCards 3 = 0 ∧
    (r.deal_cards rng).playerCards 1 &&& (r.deal_cards rng).playerCards 2 = 0 ∧
    (r.deal_cards rng).playerCards 1 &&& (r.deal_cards rng).playerCards 3 = 0 ∧
    (r.deal_cards rng).playerCards 2 &&& (r.deal_cards rng).playerCards 3 = 0 ∧
    (r.deal_cards rng).playerCards 0 ||| (r.deal_cards rng).playerCards 1 |||
      (r.deal_cards rng).playerCards 2 ||| (r.deal_cards rng).playerCards 3 = Stack.ALL := by
  obtain ⟨⟨l0, l1, l2, l3⟩, ⟨d01, d02, d03, d12, d13, d23⟩, hu⟩ :=
    deal_cards_partition r rng
  exact ⟨l0, l1, l2, l3, d01, d02, d03, d12, d13, d23, hu⟩

theorem not_both_of_land_zero {a b : Nat} (h : a &&& b = 0) {i : Nat}
    (ha : a.testBit i = true) (hb : b.testBit i = true) : False := by
  have := congrArg (fun n => n.testBit i) h
  simp [Nat.testBit_land, ha, hb] at this

/-- The follow-suit step only ever shrinks the hand. -/
theorem followFiltered_subset (r : Round) (i : Nat)
    (h : r.followFiltered.testBit i = true) : (r.playerCards r.turn).testBit i = true := by
  unfold Round.followFiltered at h
  rcases hS : r.trick.suite_to_follow with _ | su <;> rw [hS] at h <;> dsimp only at h
  · exact h
  · split at h
    · exact testBit_land_left h
    · exact h

/-- Moving one card of the acting player's hand to the played set preserves
the conservation invariant. -/
theorem conserved_move (P : Nat) (H : Nat → Nat) (T ci : Nat) (hT : T < 4) (hci : ci < 32)
    (hbit : (H T).testBit ci = true)
    (hu : P ||| H 0 ||| H 1 ||| H 2 ||| H 3 = Stack.ALL)
    (hph : ∀ p, p < 4 → P &&& H p = 0)
    (hpw : ∀ p q, p < 4 → q < 4 → p ≠ q → H p &&& H q = 0) :
    (P ||| 1 <<< ci ||| (if 0 = T then H 0 ^^^ 1 <<< ci else H 0) |||
      (if 1 = T then H 1 ^^^ 1 <<< ci else H 1) |||
      (if 2 = T then H 2 ^^^ 1 <<< ci else H 2) |||
      (if 3 = T then H 3 ^^^ 1 <<< ci else H 3) = Stack.ALL) ∧
    (∀ p, p < 4 → (P ||| 1 <<< ci) &&& (if p = T then H p ^^^ 1 <<< ci else H p) = 0) ∧
    (∀ p q, p < 4 → q < 4 → p ≠ q →
      (if p = T then H p ^^^ 1 <<< ci else H p) &&&
        (if q = T then H q ^^^ 1 <<< ci else H q) = 0) := by
  have hP : P.testBit ci = false := by
    rw [Bool.eq_false_iff]
    intro hp
    exact not_both_of_land_zero (hph T hT) hp hbit
  have hothers : ∀ p, p < 4 → p ≠ T → (H p).testBit ci = false := by
    intro p hp hpT
    rw [Bool.eq_false_iff]
    intro hp'
    exact not_both_of_land_zero (hpw p T hp hT hpT) hp' hbit
  have hIfbit : ∀ p x, x ≠ ci →
      ((if p = T then H p ^^^ 1 <<< ci else H p)).testBit x = (H p).testBit x := by
    intro p x hx
    split
    · rw [Nat.testBit_xor, testBit_one_shiftLeft]
      simp [hx]
    · rfl
  refine ⟨?_, ?_, ?_⟩
  · refine Nat.eq_of_testBit_eq fun x => ?_
    by_cases hx : x = ci
    · subst hx
      simp only [Nat.testBit_lor, testBit_one_shiftLeft, testBit_ALL]
      simp [hci]
    · have hold := congrArg (fun n => n.testBit x) hu
      simp only [Nat.testBit_lor, testBit_ALL] at hold
      simp only [Nat.testBit_lor, testBit_one_shiftLeft, hIfbit _ x hx, testBit_ALL]
      simpa [hx] using hold
  · intro p hp
    refine land_eq_zero_of_no_common _ _ fun x hxP hxH => ?_
    rw [Nat.testBit_lor, Bool.or_eq_true, testBit_one_shiftLeft, decide_eq_true_eq] at hxP
    by_cases hx : x = ci
    · subst hx
      by_cases hpT : p = T
      · subst hpT
        rw [if_pos rfl, Nat.testBit_xor, testBit_one_shiftLeft] at hxH
        simp [hbit] at hxH
      · rw [if_neg hpT] at hxH
        rw [hothers p hp hpT] at hxH
        exact Bool.false_ne_true hxH
    · rw [hIfbit p x hx] at hxH
      rcases hxP with hxP | hxP
      · exact not_both_of_land_zero (hph p hp) hxP hxH
      · exact hx hxP
  · intro p q hp hq hne
    refine land_eq_zero_of_no_common _ _ fun x hxp hxq => ?_
    by_cases hx : x = ci
    · subst hx
      by_cases hpT : p = T
      · subst hpT
        rw [if_pos rfl, Nat.testBit_xor, testBit_one_shiftLeft] at hxp
        simp [hbit] at hxp
      · rw [if_neg hpT, hothers p hp hpT] at hxp
        exact Bool.false_ne_true hxp
    · rw [hIfbit p x hx] at hxp
      rw [hIfbit q x hx] at hxq
      exact not_both_of_land_zero (hpw p q hp hq hne) hxp hxq

/-- Resolving a finished trick does not change hands or played cards, hence
preserves conservation. -/
theorem conserved_on_trick_finish (r : Round) (h : Conserved r) :
    Conserved r.on_trick_finish := by
  unfold Round.on_trick_finish
  rcases hw : r.trick.winner with _ | ⟨wc, wp⟩
  · exact h
  · exact h

/-- C6: the conservation invariant holds after `Round::new` and is preserved
by `apply_action` for every action in the current `possible_actions()`
(the bound `turn < 4` models the hand-array indexing of the source). -/
theorem claim6_conservation :
    (∀ (d : Nat) (rng : List Nat), Conserved (Round.new d rng)) ∧
    (∀ (r : Round) (a : GameAction), Conserved r → r.turn < 4 →
      r.possible_actions.has a = true → Conserved (r.apply_action a)) := by
  constructor
  · intro d rng
    obtain ⟨⟨l0, l1, l2, l3⟩, ⟨d01, d02, d03, d12, d13, d23⟩, hu⟩ :=
      deal_cards_partition (Round.mkDefault.set_dealer d) rng
    refine ⟨?_, ?_, ?_⟩
    · show (0 : Nat) ||| _ ||| _ ||| _ ||| _ = Stack.ALL
      rw [Nat.zero_or]
      exact hu
    · intro p hp
      show (0 : Nat) &&& _ = 0
      rw [Nat.zero_and]
    · intro p q hp hq hne
      interval_cases p <;> interval_cases q <;>
        first
          | exact absurd rfl hne
          | assumption
          | (rw [Nat.land_comm]; assumption)
  · intro r a hc ht ha
    obtain ⟨hu, hph, hpw⟩ := hc
    cases a with
    | pickTrump t => exact ⟨hu, hph, hpw⟩
    | playCard c =>
      have hph' : r.phase = .PlayCards := by
        cases hphase : r.phase
        · exfalso
          unfold Round.possible_actions at ha
          rw [hphase] at ha
          dsimp only at ha
          unfold Round.possible_trump_actions at ha
          simp [ActionCollection.has] at ha
        · rfl
      have hbit : (r.playerCards r.turn).testBit c.index = true := by
        unfold Round.possible_actions at ha
        rw [hph'] at ha
        dsimp only at ha
        unfold Round.possible_card_actions at ha
        simp only [ActionCollection.has] at ha
        exact followFiltered_subset r c.index (overtrumpFiltered_subset r _ c.index ha)
      have hci : c.index < 32 := by
        have hb : (r.playedCards ||| r.playerCards 0 ||| r.playerCards 1 |||
            r.playerCards 2 ||| r.playerCards 3).testBit c.index = true := by
          simp only [Nat.testBit_lor, Bool.or_eq_true]
          rcases (by omega : r.turn = 0 ∨ r.turn = 1 ∨ r.turn = 2 ∨ r.turn = 3) with
            h | h | h | h <;> rw [h] at hbit <;> simp [hbit]
        rw [hu, testBit_ALL, decide_eq_true_eq] at hb
        exact hb
      have cm := conserved_move r.playedCards r.playerCards r.turn c.index ht hci hbit
        hu hph hpw
      have hkey : Conserved { r with
          trick := r.trick.play c r.turn,
          playedCards := r.playedCards ||| (1 <<< c.index),
          playerCards := fun p =>
            if p = r.turn then r.playerCards p ^^^ (1 <<< c.index) else r.playerCards p } :=
        ⟨cm.1, cm.2.1, cm.2.2⟩
      show Conserved (r.play_card c)
      unfold Round.play_card
      dsimp only
      split
      · exact conserved_on_trick_finish _ hkey
      · exact hkey

/-- Witness for `claim6_conservation` at the concrete state `rPick` with the
always legal no-trump bid. -/
theorem claim6_conservation_witness :
    (Conserved rPick ∧ rPick.turn < 4 ∧
      rPick.possible_actions.has (.pickTrump none) = true) ∧
    Conserved (rPick.apply_action (.pickTrump none)) := by
  have hc : Conserved rPick := by
    refine ⟨by decide, ?_, ?_⟩
    · intro p hp
      interval_cases p <;> decide
    · intro p q hp hq hne
      interval_cases p <;> interval_cases q <;>
        first
          | exact absurd rfl hne
          | decide
  exact ⟨⟨hc, by decide, by decide⟩,
    claim6_conservation.2 rPick (.pickTrump none) hc (by decide) (by decide)⟩

theorem bool_eq_of_iff {a b : Bool} (h : a = true ↔ b = true) : a = b := by
  cases a <;> cases b <;> simp_all

/-- The index vector built by `randomize` has as many entries as the unseen
stack has cards. -/
theorem filter_range_length (s : Nat) :
    ((List.range 32).filter (fun x => Stack.has_index s x)).length = Stack.len s := by
  rw [Stack.len, Finset.card, Finset.filter_val, Finset.range_val]
  rw [Multiset.range, Multiset.filter_coe, Multiset.coe_card]
  congr 1
  apply List.filter_congr
  intro x _
  simp [Stack.has_index]

theorem stack_len_congr {a b : Nat} (h : ∀ x, a.testBit x = b.testBit x) :
    Stack.len a = Stack.len b := by
  rw [Stack.len, Stack.len]
  congr 1
  apply Finset.filter_congr
  intro x _
  rw [h x]

theorem stack_len_lor_disjoint (a b : Nat)
    (hd : ∀ x, a.testBit x = true → b.testBit x = true → False) :
    Stack.len (a ||| b) = Stack.len a + Stack.len b := by
  rw [Stack.len, Stack.len, Stack.len, ← Finset.card_union_of_disjoint (by
    rw [Finset.disjoint_left]
    intro x hx1 hx2
    rw [Finset.mem_filter] at hx1 hx2
    exact hd x hx1.2 hx2.2)]
  congr 1
  ext x
  simp only [Finset.mem_filter, Finset.mem_union, Nat.testBit_lor, Bool.or_eq_true]
  tauto

/-- Under conservation every card of a hand is a deck card. -/
theorem hand_lt_32 (r : Round) (hc : Conserved r) (p : Nat) (hp : p < 4) (x : Nat)
    (h : (r.playerCards p).testBit x = true) : x < 32 := by
  obtain ⟨hu, _, _⟩ := hc
  have hub := congrArg (fun n => n.testBit x) hu
  simp only [Nat.testBit_lor, testBit_ALL] at hub
  rcases (by omega : p = 0 ∨ p = 1 ∨ p = 2 ∨ p = 3) with hh | hh | hh | hh <;>
    subst hh <;> rw [h] at hub <;> simp at hub <;> exact hub

/-- Under conservation every played card is a deck card. -/
theorem played_lt_32 (r : Round) (hc : Conserved r) (x : Nat)
    (h : r.playedCards.testBit x = true) : x < 32 := by
  obtain ⟨hu, _, _⟩ := hc
  have hub := congrArg (fun n => n.testBit x) hu
  simp only [Nat.testBit_lor, testBit_ALL] at hub
  rw [h] at hub
  simp at hub
  exact hub

/-- Under conservation the unseen stack of an observer consists exactly of
the cards of the other three hands. -/
theorem randomize_S_char (r : Round) (obs : Nat) (hobs : obs < 4) (hc : Conserved r) :
    ∀ x, (Stack.ALL ^^^ r.playerCards obs ^^^ r.playedCards).testBit x = true ↔
      ((r.playerCards ((obs + 1) % 4)).testBit x = true ∨
       (r.playerCards ((obs + 2) % 4)).testBit x = true ∨
       (r.playerCards ((obs + 3) % 4)).testBit x = true) := by
  intro x
  obtain ⟨hu, hph, hpw⟩ := hc
  have hA : (Stack.ALL ^^^ r.playerCards obs ^^^ r.playedCards).testBit x = true ↔
      (x < 32 ∧ (r.playerCards obs).testBit x = false ∧ r.playedCards.testBit x = false) := by
    have hobs32 := hand_lt_32 r ⟨hu, hph, hpw⟩ obs hobs x
    have hP32 := played_lt_32 r ⟨hu, hph, hpw⟩ x
    have hnb : ¬(r.playedCards.testBit x = true ∧ (r.playerCards obs).testBit x = true) :=
      fun hb => not_both_of_land_zero (hph obs hobs) hb.1 hb.2
    rw [Nat.testBit_xor, Nat.testBit_xor, testBit_ALL]
    cases ha : (r.playerCards obs).testBit x <;> cases hb : r.playedCards.testBit x <;>
      by_cases hx : x < 32 <;> simp_all
  rw [hA]
  constructor
  · rintro ⟨hx32, hobsf, hPf⟩
    have hub := congrArg (fun n => n.testBit x) hu
    simp only [Nat.testBit_lor, testBit_ALL] at hub
    rw [decide_eq_true hx32] at hub
    rcases (by omega : obs = 0 ∨ obs = 1 ∨ obs = 2 ∨ obs = 3) with h | h | h | h <;>
      subst h <;> rw [hobsf, hPf] at hub <;> simp at hub ⊢ <;> tauto
  · have key : ∀ i, i = 1 ∨ i = 2 ∨ i = 3 →
        (r.playerCards ((obs + i) % 4)).testBit x = true →
        x < 32 ∧ (r.playerCards obs).testBit x = false ∧ r.playedCards.testBit x = false := by
      intro i hi hp
      have hpi : (obs + i) % 4 < 4 := Nat.mod_lt _ (by omega)
      have hne : obs ≠ (obs + i) % 4 := by omega
      refine ⟨hand_lt_32 r ⟨hu, hph, hpw⟩ _ hpi x hp, ?_, ?_⟩
      · rw [Bool.eq_false_iff]
        intro hb
        exact not_both_of_land_zero (hpw obs ((obs + i) % 4) hobs hpi hne) hb hp
      · rw [Bool.eq_false_iff]
        intro hb
        exact not_both_of_land_zero (hph ((obs + i) % 4) hpi) hb hp
    rintro (hp | hp | hp)
    · exact key 1 (by omega) hp
    · exact key 2 (by omega) hp
    · exact key 3 (by omega) hp

/-- Bits of a dealt segment of the shuffled index vector. -/
theorem fromSeg_char (f : Nat → Nat) (start n : Nat) :
    ∀ x, (fromSeg f start n).testBit x = true ↔
      ∃ q, start ≤ q ∧ q < start + n ∧ f q = x := by
  induction n with
  | zero =>
    intro x
    simp only [fromSeg, Nat.zero_testBit, Bool.false_eq_true, false_iff]
    rintro ⟨q, h1, h2, h3⟩
    omega
  | succ m ih =>
    intro x
    rw [fromSeg, Nat.testBit_lor, Bool.or_eq_true, testBit_one_shiftLeft,
      decide_eq_true_eq, ih x]
    constructor
    · rintro (⟨q, h1, h2, h3⟩ | hx)
      · exact ⟨q, h1, by omega, h3⟩
      · exact ⟨start + m, by omega, by omega, hx.symm⟩
    · rintro ⟨q, h1, h2, h3⟩
      rcases (by omega : q < start + m ∨ q = start + m) with hq | hq
      · exact Or.inl ⟨q, h1, hq, h3⟩
      · subst hq
        exact Or.inr h3.symm

/-- The sorted unseen-index vector, read as a position-to-value map, is a
bijection from its positions onto the unseen card set. -/
theorem initial_getD_bijOn (s : Nat) (hs : ∀ x, s.testBit x = true → x < 32) :
    Set.BijOn (fun k => ((List.range 32).filter (fun x => Stack.has_index s x)).getD k 0)
      (Set.Iio ((List.range 32).filter (fun x => Stack.has_index s x)).length)
      {x | s.testBit x = true} := by
  set l := (List.range 32).filter (fun x => Stack.has_index s x) with hl
  have hnd : l.Nodup := List.Nodup.filter _ (List.nodup_range 32)
  have hmem : ∀ x, x ∈ l ↔ s.testBit x = true := by
    intro x
    rw [hl, List.mem_filter, List.mem_range]
    constructor
    · rintro ⟨_, h⟩
      exact h
    · intro h
      exact ⟨hs x h, h⟩
  refine ⟨?_, ?_, ?_⟩
  · intro k hk
    rw [Set.mem_Iio] at hk
    show s.testBit (l.getD k 0) = true
    rw [List.getD_eq_getElem l 0 hk]
    exact (hmem _).mp (l.getElem_mem hk)
  · intro k1 h1 k2 h2 he
    rw [Set.mem_Iio] at h1 h2
    change l.getD k1 0 = l.getD k2 0 at he
    rw [List.getD_eq_getElem l 0 h1, List.getD_eq_getElem l 0 h2] at he
    exact (List.Nodup.getElem_inj_iff hnd).mp he
  · intro x hx
    rw [Set.mem_setOf_eq] at hx
    obtain ⟨k, hk, hkx⟩ := List.mem_iff_getElem.mp ((hmem x).mpr hx)
    refine ⟨k, Set.mem_Iio.mpr hk, ?_⟩
    show l.getD k 0 = x
    rw [List.getD_eq_getElem l 0 hk]
    exact hkx

/-- Every Fisher-Yates step of the shuffle keeps the index map a bijection
onto the unseen set. -/
theorem shufIter_bijOn (rng : List Nat) (f0 : Nat → Nat) (len : Nat) (S : Set Nat)
    (hf0 : Set.BijOn f0 (Set.Iio len) S) :
    ∀ k, k ≤ len - 1 → Set.BijOn (shufIter rng f0 len k) (Set.Iio len) S := by
  intro k
  induction k with
  | zero => exact fun _ => hf0
  | succ k ih =>
    intro hk
    have hi : len - 1 - k < len := by omega
    have hj : (rng.getD k 0) % (len - 1 - k + 1) < len := by
      have := Nat.mod_lt (rng.getD k 0) (y := len - 1 - k + 1) (by omega)
      omega
    exact swapFn_bijOn (ih (by omega)) hi hj

theorem shuffle_bijOn (rng : List Nat) (f0 : Nat → Nat) (len : Nat) (S : Set Nat)
    (hf0 : Set.BijOn f0 (Set.Iio len) S) :
    Set.BijOn (shuffle rng f0 len) (Set.Iio len) S :=
  shufIter_bijOn rng f0 len S hf0 (len - 1) (le_refl _)

theorem unseen_lt_32 (r : Round) (observer : Nat) (hobs : observer < 4) (hc : Conserved r) :
    ∀ x, (r.unseenOf observer).testBit x = true → x < 32 := by
  intro x hx
  rcases (randomize_S_char r observer hobs hc x).mp hx with h | h | h
  · exact hand_lt_32 r hc _ (Nat.mod_lt _ (by omega)) x h
  · exact hand_lt_32 r hc _ (Nat.mod_lt _ (by omega)) x h
  · exact hand_lt_32 r hc _ (Nat.mod_lt _ (by omega)) x h

theorem shufFn_bijOn (r : Round) (observer : Nat) (rng : List Nat)
    (hobs : observer < 4) (hc : Conserved r) :
    Set.BijOn (r.shufFn observer rng) (Set.Iio (r.idxList observer).length)
      {x | (r.unseenOf observer).testBit x = true} :=
  shuffle_bijOn _ _ _ _ (initial_getD_bijOn _ (unseen_lt_32 r observer hobs hc))

theorem idxList_length (r : Round) (observer : Nat) (hobs : observer < 4) (hc : Conserved r) :
    (r.idxList observer).length =
      Stack.len (r.playerCards ((observer + 1) % 4)) +
      Stack.len (r.playerCards ((observer + 2) % 4)) +
      Stack.len (r.playerCards ((observer + 3) % 4)) := by
  obtain ⟨hu, hph, hpw⟩ := hc
  have hm1 : (observer + 1) % 4 < 4 := Nat.mod_lt _ (by omega)
  have hm2 : (observer + 2) % 4 < 4 := Nat.mod_lt _ (by omega)
  have hm3 : (observer + 3) % 4 < 4 := Nat.mod_lt _ (by omega)
  have h12 : (observer + 1) % 4 ≠ (observer + 2) % 4 := by omega
  have h13 : (observer + 1) % 4 ≠ (observer + 3) % 4 := by omega
  have h23 : (observer + 2) % 4 ≠ (observer + 3) % 4 := by omega
  have hSbits : ∀ x, (r.unseenOf observer).testBit x =
      (r.playerCards ((observer + 1) % 4) ||| r.playerCards ((observer + 2) % 4) |||
        r.playerCards ((observer + 3) % 4)).testBit x := by
    intro x
    apply bool_eq_of_iff
    constructor
    · intro hx
      rcases (randomize_S_char r observer hobs ⟨hu, hph, hpw⟩ x).mp hx with h | h | h <;>
        simp [Nat.testBit_lor, h]
    · intro hx
      apply (randomize_S_char r observer hobs ⟨hu, hph, hpw⟩ x).mpr
      simp only [Nat.testBit_lor, Bool.or_eq_true] at hx
      tauto
  have hd12 : ∀ x, (r.playerCards ((observer + 1) % 4)).testBit x = true →
      (r.playerCards ((observer + 2) % 4)).testBit x = true → False :=
    fun x u v => not_both_of_land_zero (hpw _ _ hm1 hm2 h12) u v
  have hd3 : ∀ x, (r.playerCards ((observer + 1) % 4) |||
        r.playerCards ((observer + 2) % 4)).testBit x = true →
      (r.playerCards ((observer + 3) % 4)).testBit x = true → False := by
    intro x u v
    rw [Nat.testBit_lor, Bool.or_eq_true] at u
    rcases u with u | u
    · exact not_both_of_land_zero (hpw _ _ hm1 hm3 h13) u v
    · exact not_both_of_land_zero (hpw _ _ hm2 hm3 h23) u v
  have hbase : (r.idxList observer).length = Stack.len (r.unseenOf observer) :=
    filter_range_length (r.unseenOf observer)
  rw [hbase, stack_len_congr hSbits, stack_len_lor_disjoint _ _ hd3,
    stack_len_lor_disjoint _ _ hd12]

theorem randomize_proj (r : Round) (observer : Nat) (rng : List Nat) :
    (r.randomize observer rng).playerCards ((observer + 1) % 4) =
      fromSeg (r.shufFn observer rng) 0 (Stack.len (r.playerCards ((observer + 1) % 4))) ∧
    (r.randomize observer rng).playerCards ((observer + 2) % 4) =
      fromSeg (r.shufFn observer rng) (Stack.len (r.playerCards ((observer + 1) % 4)))
        (Stack.len (r.playerCards ((observer + 2) % 4))) ∧
    (r.randomize observer rng).playerCards ((observer + 3) % 4) =
      fromSeg (r.shufFn observer rng)
        (Stack.len (r.playerCards ((observer + 1) % 4)) +
          Stack.len (r.playerCards ((observer + 2) % 4)))
        (Stack.len (r.playerCards ((observer + 3) % 4))) ∧
    (observer < 4 → (r.randomize observer rng).playerCards observer =
      r.playerCards observer) ∧
    (r.randomize observer rng).playedCards = r.playedCards := by
  have h21 : (observer + 2) % 4 ≠ (observer + 1) % 4 := by omega
  have h31 : (observer + 3) % 4 ≠ (observer + 1) % 4 := by omega
  have h32 : (observer + 3) % 4 ≠ (observer + 2) % 4 := by omega
  refine ⟨?_, ?_, ?_, ?_, rfl⟩
  · simp only [Round.randomize]
    simp
  · simp only [Round.randomize]
    rw [if_neg h21]
    simp
  · simp only [Round.randomize]
    rw [if_neg h31, if_neg h32]
    simp
  · intro hobs
    have g1 : observer ≠ (observer + 1) % 4 := by omega
    have g2 : observer ≠ (observer + 2) % 4 := by omega
    have g3 : observer ≠ (observer + 3) % 4 := by omega
    simp only [Round.randomize]
    rw [if_neg g1, if_neg g2, if_neg g3]

/-- C4: `randomize(observer)` preserves the observer's hand and the played
set exactly, and redeals the other three hands as pairwise disjoint subsets
of the unseen cards whose union is exactly the unseen cards, each with its
player's original hand size. -/
theorem claim4_randomize (r : Round) (observer : Nat) (rng : List Nat)
    (hc : Conserved r) (hobs : observer < 4) :
    (r.randomize observer rng).playerCards observer = r.playerCards observer ∧
    (r.randomize observer rng).playedCards = r.playedCards ∧
    (∀ x, ((r.randomize observer rng).playerCards ((observer + 1) % 4)).testBit x = true →
      (Stack.ALL ^^^ r.playerCards observer ^^^ r.playedCards).testBit x = true) ∧
    (∀ x, ((r.randomize observer rng).playerCards ((observer + 2) % 4)).testBit x = true →
      (Stack.ALL ^^^ r.playerCards observer ^^^ r.playedCards).testBit x = true) ∧
    (∀ x, ((r.randomize observer rng).playerCards ((observer + 3) % 4)).testBit x = true →
      (Stack.ALL ^^^ r.playerCards observer ^^^ r.playedCards).testBit x = true) ∧
    ((r.randomize observer rng).playerCards ((observer + 1) % 4) &&&
      (r.randomize observer rng).playerCards ((observer + 2) % 4) = 0) ∧
    ((r.randomize observer rng).playerCards ((observer + 1) % 4) &&&
      (r.randomize observer rng).playerCards ((observer + 3) % 4) = 0) ∧
    ((r.randomize observer rng).playerCards ((observer + 2) % 4) &&&
      (r.randomize observer rng).playerCards ((observer + 3) % 4) = 0) ∧
    ((r.randomize observer rng).playerCards ((observer + 1) % 4) |||
      (r.randomize observer rng).playerCards ((observer + 2) % 4) |||
      (r.randomize observer rng).playerCards ((observer + 3) % 4) =
      Stack.ALL ^^^ r.playerCards observer ^^^ r.playedCards) ∧
    (Stack.len ((r.randomize observer rng).playerCards ((observer + 1) % 4)) =
      Stack.len (r.playerCards ((observer + 1) % 4))) ∧
    (Stack.len ((r.randomize observer rng).playerCards ((observer + 2) % 4)) =
      Stack.len (r.playerCards ((observer + 2) % 4))) ∧
    (Stack.len ((r.randomize observer rng).playerCards ((observer + 3) % 4)) =
      Stack.len (r.playerCards ((observer + 3) % 4))) := by
  obtain ⟨hp1, hp2, hp3, hpo, hpd⟩ := randomize_proj r observer rng
  have hbij := shufFn_bijOn r observer rng hobs hc
  have hlen := idxList_length r observer hobs hc
  set f := r.shufFn observer rng with hfdef
  set n1 := Stack.len (r.playerCards ((observer + 1) % 4)) with hn1def
  set n2 := Stack.len (r.playerCards ((observer + 2) % 4)) with hn2def
  set n3 := Stack.len (r.playerCards ((observer + 3) % 4)) with hn3def
  set L := (r.idxList observer).length with hLdef
  have hsub : ∀ start n, start + n ≤ L → ∀ x, (fromSeg f start n).testBit x = true →
      (r.unseenOf observer).testBit x = true := by
    intro start n hsn x hx
    obtain ⟨q, hq1, hq2, hq3⟩ := (fromSeg_char f start n x).mp hx
    have hm : f q ∈ {y | (r.unseenOf observer).testBit y = true} :=
      hbij.mapsTo (Set.mem_Iio.mpr (by omega))
    rw [Set.mem_setOf_eq, hq3] at hm
    exact hm
  have hlt : ∀ start n, start + n ≤ L → ∀ q, start ≤ q → q < start + n → f q < 32 := by
    intro start n hsn q hq1 hq2
    have hm : f q ∈ {y | (r.unseenOf observer).testBit y = true} :=
      hbij.mapsTo (Set.mem_Iio.mpr (by omega))
    rw [Set.mem_setOf_eq] at hm
    exact unseen_lt_32 r observer hobs hc _ hm
  have hinjseg : ∀ lo hi : Nat, hi ≤ L → Set.InjOn f (Set.Ico lo hi) := by
    intro lo hi hhi
    exact hbij.injOn.mono (fun y hy => Set.mem_Iio.mpr (by
      rw [Set.mem_Ico] at hy
      omega))
  have hlen1 : Stack.len (fromSeg f 0 n1) = n1 := by
    have := stack_len_of_char (fromSeg f 0 n1) f 0 (0 + n1) (fromSeg_char f 0 n1)
      (hinjseg 0 (0 + n1) (by omega)) (hlt 0 n1 (by omega))
    omega
  have hlen2 : Stack.len (fromSeg f n1 n2) = n2 := by
    have := stack_len_of_char (fromSeg f n1 n2) f n1 (n1 + n2) (fromSeg_char f n1 n2)
      (hinjseg n1 (n1 + n2) (by omega)) (hlt n1 n2 (by omega))
    omega
  have hlen3 : Stack.len (fromSeg f (n1 + n2) n3) = n3 := by
    have := stack_len_of_char (fromSeg f (n1 + n2) n3) f (n1 + n2) (n1 + n2 + n3)
      (fromSeg_char f (n1 + n2) n3) (hinjseg (n1 + n2) (n1 + n2 + n3) (by omega))
      (hlt (n1 + n2) n3 (by omega))
    omega
  have hd12 : fromSeg f 0 n1 &&& fromSeg f n1 n2 = 0 :=
    land_eq_zero_of_char _ _ f 0 (0 + n1) n1 (n1 + n2) L (fromSeg_char f 0 n1)
      (fromSeg_char f n1 n2) hbij.injOn (by omega) (by omega) (by omega)
  have hd13 : fromSeg f 0 n1 &&& fromSeg f (n1 + n2) n3 = 0 :=
    land_eq_zero_of_char _ _ f 0 (0 + n1) (n1 + n2) (n1 + n2 + n3) L
      (fromSeg_char f 0 n1) (fromSeg_char f (n1 + n2) n3) hbij.injOn (by omega)
      (by omega) (by omega)
  have hd23 : fromSeg f n1 n2 &&& fromSeg f (n1 + n2) n3 = 0 :=
    land_eq_zero_of_char _ _ f n1 (n1 + n2) (n1 + n2) (n1 + n2 + n3) L
      (fromSeg_char f n1 n2) (fromSeg_char f (n1 + n2) n3) hbij.injOn (by omega)
      (by omega) (by omega)
  have hun : fromSeg f 0 n1 ||| fromSeg f n1 n2 ||| fromSeg f (n1 + n2) n3 =
      r.unseenOf observer := by
    refine Nat.eq_of_testBit_eq fun x => ?_
    apply bool_eq_of_iff
    rw [Nat.testBit_lor, Nat.testBit_lor]
    simp only [Bool.or_eq_true]
    constructor
    · rintro ((h | h) | h)
      · exact hsub 0 n1 (by omega) x h
      · exact hsub n1 n2 (by omega) x h
      · exact hsub (n1 + n2) n3 (by omega) x h
    · intro hx
      obtain ⟨q, hqL, hqx⟩ :=
        hbij.surjOn (show x ∈ {y | (r.unseenOf observer).testBit y = true} from hx)
      rw [Set.mem_Iio] at hqL
      rcases (by omega : q < 0 + n1 ∨ (n1 ≤ q ∧ q < n1 + n2) ∨
          ((n1 + n2) ≤ q ∧ q < (n1 + n2) + n3)) with h | h | h
      · exact Or.inl (Or.inl ((fromSeg_char f 0 n1 x).mpr ⟨q, by omega, h, hqx⟩))
      · exact Or.inl (Or.inr ((fromSeg_char f n1 n2 x).mpr ⟨q, h.1, h.2, hqx⟩))
      · exact Or.inr ((fromSeg_char f (n1 + n2) n3 x).mpr ⟨q, h.1, h.2, hqx⟩)
  refine ⟨hpo hobs, hpd, ?_, ?_, ?_, ?_, ?_, ?_, ?_, ?_, ?_, ?_⟩
  · intro x hx
    rw [hp1] at hx
    exact hsub 0 n1 (by omega) x hx
  · intro x hx
    rw [hp2] at hx
    exact hsub n1 n2 (by omega) x hx
  · intro x hx
    rw [hp3] at hx
    exact hsub (n1 + n2) n3 (by omega) x hx
  · rw [hp1, hp2]
    exact hd12
  · rw [hp1, hp3]
    exact hd13
  · rw [hp2, hp3]
    exact hd23
  · rw [hp1, hp2, hp3]
    exact hun
  · rw [hp1]
    exact hlen1
  · rw [hp2]
    exact hlen2
  · rw [hp3]
    exact hlen3

/-- Witness for `claim4_randomize` at the concrete state `rPick` with
observer 0 and a concrete draw list. -/
theorem claim4_randomize_witness :
    Conserved rPick ∧
    ((rPick.randomize 0 [5, 3, 2, 8]).playerCards 0 = rPick.playerCards 0 ∧
    (rPick.randomize 0 [5, 3, 2, 8]).playedCards = rPick.playedCards ∧
    (∀ x, ((rPick.randomize 0 [5, 3, 2, 8]).playerCards ((0 + 1) % 4)).testBit x = true →
      (Stack.ALL ^^^ rPick.playerCards 0 ^^^ rPick.playedCards).testBit x = true) ∧
    (∀ x, ((rPick.randomize 0 [5, 3, 2, 8]).playerCards ((0 + 2) % 4)).testBit x = true →
      (Stack.ALL ^^^ rPick.playerCards 0 ^^^ rPick.playedCards).testBit x = true) ∧
    (∀ x, ((rPick.randomize 0 [5, 3, 2, 8]).playerCards ((0 + 3) % 4)).testBit x = true →
      (Stack.ALL ^^^ rPick.playerCards 0 ^^^ rPick.playedCards).testBit x = true) ∧
    ((rPick.randomize 0 [5, 3, 2, 8]).playerCards ((0 + 1) % 4) &&&
      (rPick.randomize 0 [5, 3, 2, 8]).playerCards ((0 + 2) % 4) = 0) ∧
    ((rPick.randomize 0 [5, 3, 2, 8]).playerCards ((0 + 1) % 4) &&&
      (rPick.randomize 0 [5, 3, 2, 8]).playerCards ((0 + 3) % 4) = 0) ∧
    ((rPick.randomize 0 [5, 3, 2, 8]).playerCards ((0 + 2) % 4) &&&
      (rPick.randomize 0 [5, 3, 2, 8]).playerCards ((0 + 3) % 4) = 0) ∧
    ((rPick.randomize 0 [5, 3, 2, 8]).playerCards ((0 + 1) % 4) |||
      (rPick.randomize 0 [5, 3, 2, 8]).playerCards ((0 + 2) % 4) |||
      (rPick.randomize 0 [5, 3, 2, 8]).playerCards ((0 + 3) % 4) =
      Stack.ALL ^^^ rPick.playerCards 0 ^^^ rPick.playedCards) ∧
    (Stack.len ((rPick.randomize 0 [5, 3, 2, 8]).playerCards ((0 + 1) % 4)) =
      Stack.len (rPick.playerCards ((0 + 1) % 4))) ∧
    (Stack.len ((rPick.randomize 0 [5, 3, 2, 8]).playerCards ((0 + 2) % 4)) =
      Stack.len (rPick.playerCards ((0 + 2) % 4))) ∧
    (Stack.len ((rPick.randomize 0 [5, 3, 2, 8]).playerCards ((0 + 3) % 4)) =
      Stack.len (rPick.playerCards ((0 + 3) % 4)))) := by
  have hcp : Conserved rPick := by
    refine ⟨by decide, ?_, ?_⟩
    · intro p hp
      interval_cases p <;> decide
    · intro p q hp hq hne
      interval_cases p <;> interval_cases q <;>
        first
          | exact absurd rfl hne
          | decide
  exact ⟨hcp, claim4_randomize rPick 0 [5, 3, 2, 8] hcp (by decide)⟩
